import Mathlib

/-!
# Verification of the sidebar/tag-index generator

A shallow embedding of `src/.vitepress/helpers/sidebar.ts` (the only
logic-bearing module of the repository) together with proofs about the
navigation model it produces.

Modelling conventions:

* The ambient filesystem is made explicit: an `Entry` is a file (with its
  parsed frontmatter), a directory (with a `readable` flag that is `false`
  when `readdirSync` would throw), or a `broken` node (one on which
  `statSync` throws).  `RootFs` additionally models a missing scan root.
* JavaScript regular expressions are ASCII: `\w` is `[A-Za-z0-9_]`,
  `\d` is `[0-9]`, and the `i` flag is modelled by lower-casing.
* `String.prototype.localeCompare` is modelled by a case-insensitive
  primary comparison with a code-point tie-break (`localeCmp`).
* `Array.prototype.sort` (stable since ES2019) is modelled by a stable
  insertion sort (`sortBy`).
* `path.extname` is modelled for bare file names (the only way the helper
  calls it).
* `gray-matter` parsing is not re-implemented: a file's `Entry` carries the
  parsed `title`/`tags` frontmatter values directly, plus a `readError`
  flag for the case where `readFileSync`/`matter` throws.
-/

/-! ## Character-level models of the JS string primitives

Lean's own `String.splitOn`, `String.trim`, `String.toLower`,
`String.startsWith` and `String.endsWith` are byte-position based and do
not reduce inside the kernel, so the JS string operations are modelled
directly over the character list of a string. -/

/-- Model of `String.prototype.toLowerCase` (ASCII). -/
def jsToLower (s : String) : String := String.mk (s.data.map Char.toLower)

/-- Model of `s.startsWith(pre)`. -/
def jsStartsWith (s pre : String) : Bool := pre.data.isPrefixOf s.data

/-- Model of `s.endsWith(suf)`. -/
def jsEndsWith (s suf : String) : Bool := suf.data.reverse.isPrefixOf s.data.reverse

/-- Model of `s.trim()`: drop whitespace from both ends. -/
def jsTrim (s : String) : String :=
  String.mk (((s.data.dropWhile Char.isWhitespace).reverse.dropWhile Char.isWhitespace).reverse)

/-- Split a character list at every occurrence of `sep`. -/
def splitOnCharGo (sep : Char) (acc : List Char) : List Char → List (List Char)
  | [] => [acc.reverse]
  | c :: rest =>
      if c = sep then acc.reverse :: splitOnCharGo sep [] rest
      else splitOnCharGo sep (c :: acc) rest

/-- Model of `s.split(sep)` for a one-character separator (the helper only
splits on `','` and `'/'`). -/
def jsSplitOnChar (sep : Char) (s : String) : List String :=
  (splitOnCharGo sep [] s.data).map String.mk

/-! ## Generic comparison and sorting infrastructure -/

/-- Three-way comparison on `Nat`. -/
def natCmp (a b : Nat) : Ordering :=
  if a < b then .lt else if a = b then .eq else .gt

/-- Three-way comparison on `Char` (by code point). -/
def charCmp (a b : Char) : Ordering := natCmp a.toNat b.toNat

/-- Lexicographic three-way comparison on lists of characters. -/
def chListCmp : List Char → List Char → Ordering
  | [], [] => .eq
  | [], _ :: _ => .lt
  | _ :: _, [] => .gt
  | a :: as, b :: bs =>
      match charCmp a b with
      | .eq => chListCmp as bs
      | o => o

/-- Code-point comparison of strings. -/
def strCmp (a b : String) : Ordering := chListCmp a.data b.data

/-- Model of `a.localeCompare(b)`: ICU default collation approximated by a
case-insensitive primary comparison with a code-point tie-break. -/
def localeCmp (a b : String) : Ordering :=
  match strCmp (jsToLower a) (jsToLower b) with
  | .eq => strCmp a b
  | o => o

/-- Insert `x` into `l` before the first element strictly greater than it. -/
def insertBy (cmp : α → α → Ordering) (x : α) : List α → List α
  | [] => [x]
  | y :: ys => if cmp x y = .lt then x :: y :: ys else y :: insertBy cmp x ys

/-- Stable insertion sort; the model of `Array.prototype.sort(cmp)`. -/
def sortBy (cmp : α → α → Ordering) (l : List α) : List α :=
  l.foldl (fun acc x => insertBy cmp x acc) []

/-! ## Name cleaning (`cleanName`, sidebar.ts lines 15-21) -/

/-- JS regex `\w` (ASCII). -/
def isWordChar (c : Char) : Bool := c.isAlpha || c.isDigit || c = '_'

/-- A separator character in the sense of the `[-_]` character class. -/
def isSepChar (c : Char) : Bool := c = '-' || c = '_'

/-- Index of the last `'.'` in a character list, if any. -/
def lastDotIdx (l : List Char) : Option Nat :=
  (l.reverse.findIdx? (· = '.')).map (fun k => l.length - 1 - k)

/-- `name.replace(/\.\w+$/, '')`: the regex matches exactly when the part
after the last dot is a non-empty run of word characters; the match is then
removed. -/
def stripExtension (l : List Char) : List Char :=
  match lastDotIdx l with
  | none => l
  | some i =>
      let suffix := l.drop (i + 1)
      if !suffix.isEmpty && suffix.all isWordChar then l.take i else l

/-- `cleaned.replace(/^(\d+[_-]|[_-])/, '')`: strip one leading ordering
prefix (digits followed by a separator, or a lone leading separator). -/
def stripLeadingOrder (l : List Char) : List Char :=
  let ds := l.takeWhile Char.isDigit
  if !ds.isEmpty then
    match l.drop ds.length with
    | c :: rest => if isSepChar c then rest else l
    | [] => l
  else
    match l with
    | c :: rest => if isSepChar c then rest else l
    | [] => l

/-- `cleaned.replace(/\b\w/g, c => c.toUpperCase())`: upper-case every word
character that sits at a word boundary (start of string or preceded by a
non-word character). -/
def titleCaseGo (prevIsWord : Bool) : List Char → List Char
  | [] => []
  | c :: rest =>
      (if isWordChar c && !prevIsWord then c.toUpper else c)
        :: titleCaseGo (isWordChar c) rest

/-- `cleanName` (sidebar.ts 15-21): strip extension, strip one ordering
prefix, turn separators into spaces, title-case, trim; fall back to the
original name when the result is empty. -/
def cleanName (name : String) : String :=
  let cleaned := stripExtension name.data
  let cleaned := stripLeadingOrder cleaned
  let cleaned := cleaned.map (fun c => if isSepChar c then ' ' else c)
  let cleaned := titleCaseGo false cleaned
  let res := jsTrim (String.mk cleaned)
  if res = "" then name else res

/-! ## Link resolution (`getFileLink`, sidebar.ts 30-42) -/

/-- `contentBaseUrl` (sidebar.ts 8). -/
def contentBaseUrl : String := "/"

/-- Model of `path.extname` on a bare file name: the substring from the last
dot, unless there is no dot, the only dot is the leading character, or the
name is `".."`. -/
def extname (s : String) : String :=
  if s = ".." then ""
  else
    match lastDotIdx s.data with
    | none => ""
    | some 0 => ""
    | some i => String.mk (s.data.drop i)

/-- `filePath.substring(0, filePath.length - fileExtension.length)`. -/
def fileBaseNoExt (filePath : String) : String :=
  String.mk (filePath.data.take (filePath.data.length - (extname filePath).data.length))

/-- The test `/^(index|readme)$/i.test(fileNameWithoutExtension)`. -/
def isIndexBaseName (filePath : String) : Bool :=
  jsToLower (fileBaseNoExt filePath) == "index" || jsToLower (fileBaseNoExt filePath) == "readme"

/-- `getFileLink` (sidebar.ts 30-42). -/
def getFileLink (filePath : String) (baseUrl : String) : String :=
  if isIndexBaseName filePath then
    if baseUrl == contentBaseUrl ++ "index/" then contentBaseUrl else baseUrl
  else
    baseUrl ++ fileBaseNoExt filePath

/-! ## The filesystem model -/

/-- The parsed `tags` frontmatter field: absent (or any non-string,
non-array value), a comma-delimited string, or a list of values (already
coerced to strings, as `String(t)` would). -/
inductive TagsField where
  | absent
  | str (s : String)
  | list (l : List String)
deriving Repr, DecidableEq

/-- Parsed frontmatter of a markdown file, plus a `readError` flag modelling
`readFileSync`/`matter` throwing on this file. -/
structure FileMeta where
  title : Option String
  tags : TagsField
  readError : Bool
deriving Repr, DecidableEq

/-- A filesystem node: a file with its frontmatter, a node on which
`statSync` throws (`broken`), or a directory (whose `readable` flag is
`false` when `readdirSync` on it would throw). -/
inductive Entry where
  | file (name : String) (meta : FileMeta)
  | broken (name : String)
  | dir (name : String) (readable : Bool) (entries : List Entry)
deriving Repr

/-- The scan root: missing (`readdirSync`/`existsSync` fail), or present
with its readability and its top-level entries. -/
inductive RootFs where
  | missing
  | present (readable : Bool) (entries : List Entry)
deriving Repr

def Entry.name : Entry → String
  | .file n _ => n
  | .broken n => n
  | .dir n _ _ => n

/-- `statSync` succeeds on this entry. -/
def Entry.statable : Entry → Bool
  | .broken _ => false
  | _ => true

def Entry.isDir : Entry → Bool
  | .dir _ _ _ => true
  | _ => false

def Entry.isFile : Entry → Bool
  | .file _ _ => true
  | _ => false

/-- Frontmatter-title precedence shared by the walker and the tag scanner:
the trimmed `title` when it is a non-empty string, else the cleaned
file name. -/
def displayText (title : Option String) (name : String) : String :=
  match title with
  | some t => if jsTrim t == "" then cleanName name else jsTrim t
  | none => cleanName name

/-! ## The structural walker (`generateSidebarItems`, sidebar.ts 50-125) -/

/-- A node of the produced navigation model: a leaf (`{ text, link }`) or a
group (`{ text, items, collapsed }`).  The source never creates a node with
both `link` and `items`. -/
inductive SidebarItem where
  | leaf (text : String) (link : String)
  | group (text : String) (items : List SidebarItem) (collapsed : Bool)
deriving Repr

def SidebarItem.text : SidebarItem → String
  | .leaf t _ => t
  | .group t _ _ => t

/-- The `link` property: `some` for leaves, `none` (JS `undefined`) for
groups. -/
def SidebarItem.link : SidebarItem → Option String
  | .leaf _ l => some l
  | .group _ _ _ => none

/-- The JS truthiness of `item.items` (an array, even empty, is truthy). -/
def SidebarItem.isGroup : SidebarItem → Bool
  | .group _ _ _ => true
  | .leaf _ _ => false

/-- The `items` array of a group (empty for leaves). -/
def SidebarItem.childItems : SidebarItem → List SidebarItem
  | .group _ its _ => its
  | .leaf _ _ => []

/-- The test `/^(index|readme)\.md$/i.test(name)` used by the entry sort. -/
def isIndexMdName (n : String) : Bool :=
  jsToLower n == "index.md" || jsToLower n == "readme.md"

/-- The entry comparator of the structural walk (sidebar.ts 64-78):
index/readme files first; then (when both sides can be `stat`ed)
directories before files; then locale comparison of the raw names.  When a
`statSync` throws during the sort the directory test is skipped. -/
def entrySortCmp (a b : Entry) : Ordering :=
  let ia := isIndexMdName a.name
  let ib := isIndexMdName b.name
  if ia != ib then (if ia then .lt else .gt)
  else if a.statable && b.statable then
    if a.isDir != b.isDir then (if a.isDir then .lt else .gt)
    else localeCmp a.name b.name
  else localeCmp a.name b.name

/-- `baseUrl` normalisation at the head of both walkers (sidebar.ts 54-57,
154-156). -/
def fixSlash (b : String) : String := if jsEndsWith b "/" then b else b ++ "/"

mutual
/-- The body of the `entries.forEach` loop of `generateSidebarItems`
(sidebar.ts 80-120): the sidebar item contributed by one directory entry
(`none` when the entry is skipped).  For a subdirectory this inlines the
recursive `generateSidebarItems` call (sidebar.ts 92), i.e. sort the
children (pairing each entry with its contribution commutes with the sort,
see `dirItems_eq_sorted`), and keep the group only when non-empty. -/
def processEntry (e : Entry) (baseUrl : String) : Option SidebarItem :=
  match e with
  | .broken _ => none
  | .file name meta =>
      if jsStartsWith name "." then none
      else if jsEndsWith (jsToLower name) ".md" then
        let link := getFileLink name baseUrl
        let text := if meta.readError then cleanName name else displayText meta.title name
        some (.leaf text link)
      else none
  | .dir name readable es =>
      if jsStartsWith name "." then none
      else
        let subItems :=
          if readable then
            (sortBy (fun p q => entrySortCmp p.1 q.1)
                (pairUp es (baseUrl ++ name ++ "/"))).filterMap Prod.snd
          else []
        if subItems.isEmpty then none
        else some (.group (cleanName name) subItems true)

/-- Pair every entry of a directory listing with its contribution. -/
def pairUp (es : List Entry) (baseUrl : String) : List (Entry × Option SidebarItem) :=
  match es with
  | [] => []
  | e :: rest => (e, processEntry e baseUrl) :: pairUp rest baseUrl
end

/-- The item list produced for the entries of one readable directory:
sorted by `entrySortCmp`, each entry contributing via `processEntry`. -/
def dirItems (es : List Entry) (baseUrl : String) : List SidebarItem :=
  (sortBy (fun p q => entrySortCmp p.1 q.1) (pairUp es baseUrl)).filterMap Prod.snd

/-- `generateSidebarItems` (sidebar.ts 50-125): empty for anything that is
not a readable directory (the `existsSync`/`isDirectory` guard and the
`readdirSync` catch), otherwise the sorted item list of its entries. -/
def generateSidebarItems (e : Entry) (baseUrl : String) : List SidebarItem :=
  match e with
  | .dir _ readable es => if readable then dirItems es (fixSlash baseUrl) else []
  | _ => []

/-! ## The tag scanner (`scanFilesForTags`, sidebar.ts 145-214) -/

/-- One record of the tag accumulator (sidebar.ts 132-136). -/
structure TagPageInfo where
  link : String
  text : String
  relativePath : String
deriving Repr, DecidableEq

/-- The JS `Map` of tags: association list in insertion order. -/
abbrev TagsMap := List (String × List TagPageInfo)

/-- `tagsMap.get(k)`. -/
def mapGet (m : TagsMap) (k : String) : Option (List TagPageInfo) :=
  (m.find? (fun p => p.1 == k)).map Prod.snd

/-- Push `p` onto the page list stored under the (present) key `k`. -/
def updatePages : TagsMap → String → TagPageInfo → TagsMap
  | [], _, _ => []
  | (k, v) :: rest, tagName, p =>
      if k == tagName then (k, v ++ [p]) :: rest
      else (k, v) :: updatePages rest tagName p

/-- The per-tag insertion of sidebar.ts 194-204: create the key if absent
(`Map.set` appends new keys), then push the page unless a page with the
same `link` is already recorded under this tag. -/
def insertTag (m : TagsMap) (tagName : String) (p : TagPageInfo) : TagsMap :=
  match mapGet m tagName with
  | none => m ++ [(tagName, [p])]
  | some pages =>
      if pages.any (fun q => q.link == p.link) then m
      else updatePages m tagName p

/-- Tag parsing (sidebar.ts 176-183): comma-split/trim/compact for a string
value, trim/compact for an array value; anything else yields no tags (an
empty string is falsy and is also skipped, which yields the same result as
splitting it). -/
def parseTags : TagsField → List String
  | .absent => []
  | .str s => ((jsSplitOnChar ',' s).map (fun t => jsTrim t)).filter (fun t => !t.isEmpty)
  | .list l => (l.map (fun t => jsTrim t)).filter (fun t => !t.isEmpty)

mutual
/-- The body of the `entries.forEach` loop of `scanFilesForTags`
(sidebar.ts 160-210) applied to one entry.  `relDir` is the slash-joined
path of the current directory relative to the scan root (the model of
`path.relative(scanRoot, ·)` with normalised slashes). -/
def scanEntry (e : Entry) (baseUrl relDir : String) (m : TagsMap) : TagsMap :=
  match e with
  | .broken _ => m
  | .dir name readable es =>
      if jsStartsWith name "." then m
      else if readable then scanList es (baseUrl ++ name ++ "/") (relDir ++ name ++ "/") m
      else m
  | .file name meta =>
      if jsStartsWith name "." then m
      else if jsEndsWith (jsToLower name) ".md" then
        if meta.readError then m
        else
          let fileTags := parseTags meta.tags
          if !fileTags.isEmpty then
            let link := getFileLink name baseUrl
            let text := displayText meta.title name
            let relativePath := relDir ++ name
            fileTags.foldl
              (fun acc tag => insertTag acc (jsTrim tag) ⟨link, text, relativePath⟩) m
          else m
      else m

/-- Fold `scanEntry` over a directory listing in `readdirSync` order. -/
def scanList (es : List Entry) (baseUrl relDir : String) (m : TagsMap) : TagsMap :=
  match es with
  | [] => m
  | e :: rest => scanList rest baseUrl relDir (scanEntry e baseUrl relDir m)
end

/-- The top call `scanFilesForTags(scanRoot, baseUrl, tagsMap, scanRoot)`
(sidebar.ts 284): nothing is accumulated when the root is missing or its
listing cannot be read. -/
def scanRootForTags (root : RootFs) (baseUrl : String) : TagsMap :=
  match root with
  | .missing => []
  | .present readable es =>
      if readable then scanList es (fixSlash baseUrl) "" [] else []

/-! ## The tag-group structurer (sidebar.ts 219-324) -/

/-- `sidebarItemSorter` (sidebar.ts 219-227): groups (truthy `items`)
before leaves, ties broken by locale comparison of the display texts. -/
def sidebarItemSorter (a b : SidebarItem) : Ordering :=
  if a.isGroup != b.isGroup then (if a.isGroup then .lt else .gt)
  else localeCmp a.text b.text

/-- Replace the `items` of the first group named `dn` (the object that
`parentItems.find(item => item.text === dirName && item.items)` aliases)
by the result of `f`. -/
def replaceFirstGroup (dn : String) (f : List SidebarItem → List SidebarItem) :
    List SidebarItem → List SidebarItem
  | [] => []
  | i :: is =>
      match i with
      | .group t its c =>
          if t == dn then .group t (f its) c :: is
          else .group t its c :: replaceFirstGroup dn f is
      | .leaf t l => .leaf t l :: replaceFirstGroup dn f is

/-- `item.text === dirName && item.items`. -/
def isGroupNamed (dn : String) (i : SidebarItem) : Bool :=
  i.isGroup && i.text == dn

/-- `insertPageIntoStructure` (sidebar.ts 237-271), with the path segments
as first argument.  A single remaining segment is the file segment: push a
leaf unless a sibling already carries the same link, then re-sort.  A
directory segment finds-or-creates the group named after the cleaned
segment (re-sorting when one is created) and recurses into its items. -/
def insertPageIntoStructure :
    List String → List SidebarItem → String → String → List SidebarItem
  | [], parentItems, _, _ => parentItems
  | [_seg], parentItems, pageLink, pageText =>
      if parentItems.any (fun i => i.link == some pageLink) then parentItems
      else sortBy sidebarItemSorter (parentItems ++ [.leaf pageText pageLink])
  | seg :: rest, parentItems, pageLink, pageText =>
      let dirName := cleanName seg
      if parentItems.any (isGroupNamed dirName) then
        replaceFirstGroup dirName
          (fun its => insertPageIntoStructure rest its pageLink pageText) parentItems
      else
        replaceFirstGroup dirName
          (fun its => insertPageIntoStructure rest its pageLink pageText)
          (sortBy sidebarItemSorter (parentItems ++ [.group dirName [] true]))

/-- The page-insertion fold of one tag (sidebar.ts 300-308). -/
def buildTagRootItems (pages : List TagPageInfo) : List SidebarItem :=
  pages.foldl
    (fun acc page =>
      let segments := (jsSplitOnChar '/' page.relativePath).filter (fun s => !s.isEmpty)
      if !segments.isEmpty then insertPageIntoStructure segments acc page.link page.text
      else acc) []

/-- `generateTagsSidebarGroup` (sidebar.ts 281-324). -/
def generateTagsSidebarGroup (root : RootFs) (baseUrl : String) : Option SidebarItem :=
  let tagsMap := scanRootForTags root baseUrl
  if tagsMap.isEmpty then none
  else
    let sortedTags := sortBy localeCmp (tagsMap.map Prod.fst)
    let tagItems := sortedTags.map (fun tag =>
      let pages := (mapGet tagsMap tag).getD []
      SidebarItem.group tag (buildTagRootItems pages) true)
    some (.group "Tags" tagItems true)

/-! ## The composer (`generateSidebar`, sidebar.ts 335-389) -/

/-- `s.replace(/\/+/g, '/')`. -/
def collapseSlashesGo (prevSlash : Bool) : List Char → List Char
  | [] => []
  | c :: rest =>
      if c = '/' then
        (if prevSlash then collapseSlashesGo true rest
         else '/' :: collapseSlashesGo true rest)
      else c :: collapseSlashesGo false rest

def collapseSlashes (s : String) : String := String.mk (collapseSlashesGo false s.data)

/-- The top-level structural enumeration (sidebar.ts 345-370): only
non-hidden subdirectories of the scan root produce groups (loose files are
ignored), empty groups are dropped, and the groups are finally sorted by
display text. -/
def topLevelItems (es : List Entry) (baseUrl : String) : List SidebarItem :=
  let sidebarItems := es.foldl
    (fun acc entry =>
      match entry with
      | .broken _ => acc
      | .file _ _ => acc
      | .dir name readable subEs =>
          if jsStartsWith name "." then acc
          else
            let groupBaseUrl := collapseSlashes (baseUrl ++ name ++ "/")
            let groupItems := generateSidebarItems (.dir name readable subEs) groupBaseUrl
            if !groupItems.isEmpty then
              acc ++ [SidebarItem.group (cleanName name) groupItems true]
            else acc) []
  sortBy (fun a b => localeCmp a.text b.text) sidebarItems

/-- `generateSidebar` (sidebar.ts 335-389): the structural groups, the
optional Tags group, and the final object literally keyed by `'/'`
(sidebar.ts 386-388). -/
def generateSidebar (root : RootFs) (baseUrl : String) (includeTags : Bool) :
    List (String × List SidebarItem) :=
  let sidebarItems :=
    match root with
    | .missing => []
    | .present false _ => []
    | .present true es => topLevelItems es baseUrl
  let allSidebarItems :=
    if includeTags then
      match generateTagsSidebarGroup root baseUrl with
      | some tagsGroup => sidebarItems ++ [tagsGroup]
      | none => sidebarItems
    else sidebarItems
  [("/", allSidebarItems)]

/-! ## Predicates used by the verified properties -/

/-- Duplicate-freedom of a list of links. -/
def nodupBool (l : List String) : Bool := decide l.Nodup

mutual
/-- Inside this item, every group's immediate child list has pairwise
distinct leaf links. -/
def navLinksUnique (i : SidebarItem) : Bool :=
  match i with
  | .leaf _ _ => true
  | .group _ items _ =>
      nodupBool (items.filterMap SidebarItem.link) && navLinksUniqueAll items

def navLinksUniqueAll : List SidebarItem → Bool
  | [] => true
  | i :: rest => navLinksUnique i && navLinksUniqueAll rest
end

/-- Sibling-level link uniqueness of an item list, at its own level and at
every nested level. -/
def navLinksUniqueList (items : List SidebarItem) : Bool :=
  nodupBool (items.filterMap SidebarItem.link) && navLinksUniqueAll items

mutual
/-- Some leaf anywhere inside this item carries the link `l`. -/
def treeHasLink (l : String) (i : SidebarItem) : Bool :=
  match i with
  | .leaf _ l' => l' == l
  | .group _ items _ => listHasLink l items

def listHasLink (l : String) : List SidebarItem → Bool
  | [] => false
  | i :: rest => treeHasLink l i || listHasLink l rest
end

mutual
/-- The subtree rooted at this entry contributes no visible markup file:
the entry is hidden, a non-markdown file, a stat-broken node, or a
directory all of whose children satisfy the same condition. -/
def entryNoVisibleMd (e : Entry) : Bool :=
  match e with
  | .broken _ => true
  | .file name _ => jsStartsWith name "." || !jsEndsWith (jsToLower name) ".md"
  | .dir name _ es => jsStartsWith name "." || listNoVisibleMd es

def listNoVisibleMd : List Entry → Bool
  | [] => true
  | e :: rest => entryNoVisibleMd e && listNoVisibleMd rest
end

mutual
/-- No file anywhere in this subtree declares a tag (its `tags` field is
absent, an empty string, or parses to the empty list). -/
def entryNoTags (e : Entry) : Bool :=
  match e with
  | .broken _ => true
  | .file _ meta => (parseTags meta.tags).isEmpty
  | .dir _ _ es => listNoTags es

def listNoTags : List Entry → Bool
  | [] => true
  | e :: rest => entryNoTags e && listNoTags rest
end

/-- No file anywhere under the scan root declares a tag. -/
def rootNoTags : RootFs → Bool
  | .missing => true
  | .present _ es => listNoTags es

/-- The partition rank used by the traversal-order property: index/readme
markup files first, then directories, then plain files. -/
def entryRank (e : Entry) : Nat :=
  if isIndexMdName e.name then 0 else if e.isDir then 1 else 2

/-! ## Generic facts about the insertion sort -/

theorem insertBy_perm (cmp : α → α → Ordering) (x : α) (l : List α) :
    (insertBy cmp x l).Perm (x :: l) := by
  induction l with
  | nil => simp [insertBy]
  | cons y ys ih =>
      simp only [insertBy]
      split
      · exact List.Perm.refl _
      · exact (ih.cons y).trans (List.Perm.swap x y ys)

theorem foldl_insertBy_perm (cmp : α → α → Ordering) (l acc : List α) :
    (l.foldl (fun a x => insertBy cmp x a) acc).Perm (acc ++ l) := by
  induction l generalizing acc with
  | nil => simp
  | cons x xs ih =>
      have h1 : ((x :: xs).foldl (fun a x => insertBy cmp x a) acc)
          = xs.foldl (fun a x => insertBy cmp x a) (insertBy cmp x acc) := rfl
      rw [h1]
      exact ((ih (insertBy cmp x acc)).trans
        (((insertBy_perm cmp x acc).append_right xs).trans List.perm_middle.symm)).trans
        (List.Perm.refl _)

theorem sortBy_perm (cmp : α → α → Ordering) (l : List α) :
    (sortBy cmp l).Perm l := by
  simpa using foldl_insertBy_perm cmp l []

theorem mem_sortBy {cmp : α → α → Ordering} {l : List α} {x : α} :
    x ∈ sortBy cmp l ↔ x ∈ l := (sortBy_perm cmp l).mem_iff

/-! ## C2: the name normalizer on the spec examples -/

/-- C2 (counterexample): `cleanName` does not lower-case the tail of a word,
so `"README"` is not mapped to `"Readme"`. -/
theorem c2_readme_not_lowercased : cleanName "README" ≠ "Readme" := by decide

/-- C2 (amended): `cleanName` maps `"01-my_post-name.md"` to
`"My Post Name"`, and maps `"README"` to `"README"` unchanged — the
capitalisation step only upper-cases the first letter of each word and
never lower-cases the rest. -/
theorem c2_cleanName_examples :
    cleanName "01-my_post-name.md" = "My Post Name" ∧ cleanName "README" = "README" :=
  ⟨rfl, rfl⟩

/-! ## C3: the key of the returned navigation model -/

/-- C3 (counterexample): called with the base URL `"/blog/"`, the model is
not keyed by `"/blog/"`. -/
theorem c3_key_not_baseUrl :
    (generateSidebar (.present true []) "/blog/" true).map Prod.fst ≠ ["/blog/"] := by
  decide

/-- C3 (amended): whatever the `baseUrl` argument, the returned navigation
model has the single key `"/"` — the literal used at sidebar.ts 387. -/
theorem c3_key_always_root (root : RootFs) (b : String) (inc : Bool) :
    (generateSidebar root b inc).map Prod.fst = ["/"] := rfl

/-! ## C5: the link resolver -/

/-- C5: for any file name, when the extension-stripped base name matches
index/readme case-insensitively the link is the directory base URL (with
`"/index/"` collapsing to the site root `"/"`), and otherwise it is the
base URL concatenated with the extension-stripped base name. -/
theorem c5_getFileLink_rule (name b : String) (hb : jsEndsWith b "/" = true) :
    (isIndexBaseName name = true →
        getFileLink name b =
          (if b == contentBaseUrl ++ "index/" then contentBaseUrl else b))
  ∧ (isIndexBaseName name = false → getFileLink name b = b ++ fileBaseNoExt name) := by
  constructor <;> intro h <;> simp [getFileLink, h]

/-- C5 witness: concrete instances of the link-resolution rule. -/
theorem c5_getFileLink_rule_witness :
    getFileLink "README.md" "/docs/" = "/docs/"
  ∧ getFileLink "index.md" "/index/" = "/"
  ∧ getFileLink "post.md" "/docs/" = "/docs/post" := by
  refine ⟨?_, ?_, ?_⟩
  · rw [(c5_getFileLink_rule "README.md" "/docs/" (by decide)).1 (by decide)]; decide
  · rw [(c5_getFileLink_rule "index.md" "/index/" (by decide)).1 (by decide)]; decide
  · rw [(c5_getFileLink_rule "post.md" "/docs/" (by decide)).2 (by decide)]; decide

/-! ## C8: nested tag-group structure for the two-file example -/

/-- C8: two files tagged `tutorial` at `2025/may/intro.md` and
`2025/june/advanced.md` produce, inside the Tags group, a single group
`"2025"` whose children are the groups `"June"` (leaf "Advanced") and
`"May"` (leaf "Intro") — the `"2025"` group is reused, not duplicated. -/
theorem c8_nested_tag_structure :
    generateTagsSidebarGroup
      (.present true [.dir "2025" true
        [.dir "may" true [.file "intro.md" ⟨some "Intro", .str "tutorial", false⟩],
         .dir "june" true [.file "advanced.md" ⟨some "Advanced", .str "tutorial", false⟩]]])
      "/"
    = some (.group "Tags"
        [.group "tutorial"
          [.group "2025"
            [.group "June" [.leaf "Advanced" "/2025/june/advanced"] true,
             .group "May" [.leaf "Intro" "/2025/may/intro"] true] true] true] true) := rfl

/-! ## C4: totality and graceful degradation of the composer -/

/-- C4: the composer returns a (possibly empty) model for every input — a
missing, unreadable or empty content root yields the empty model — a
stat-broken entry contributes nothing to either walk, the rest of the walk
still processes its siblings, and the result is always a navigation model
keyed by `"/"`. -/
theorem c4_composer_total_and_graceful :
    (∀ (b : String) (inc : Bool), generateSidebar .missing b inc = [("/", [])])
  ∧ (∀ (b : String) (inc r : Bool), generateSidebar (.present r []) b inc = [("/", [])])
  ∧ (∀ (n b : String), processEntry (.broken n) b = none)
  ∧ (∀ (n b rd : String) (m : TagsMap), scanEntry (.broken n) b rd m = m)
  ∧ generateSidebarItems
      (.dir "d" true [.broken "x", .file "a.md" ⟨none, .absent, false⟩]) "/d/"
      = [.leaf "A" "/d/a"]
  ∧ (∀ (root : RootFs) (b : String) (inc : Bool),
      ∃ items, generateSidebar root b inc = [("/", items)]) := by
  refine ⟨fun b inc => by cases inc <;> rfl,
          fun b inc r => by cases r <;> cases inc <;> rfl,
          fun n b => rfl,
          fun n b rd m => rfl,
          rfl,
          fun root b inc => ⟨_, rfl⟩⟩

/-! ## C1 (counterexample): the structural walk does not deduplicate links -/

/-- C1 (counterexample): a directory holding both `index.md` and
`readme.md` yields two sibling leaves that both link to the directory base
URL, so sibling-link uniqueness fails for the structural walk. -/
theorem c1_structural_walk_duplicate_links :
    generateSidebarItems
        (.dir "g" true [.file "index.md" ⟨none, .absent, false⟩,
                        .file "readme.md" ⟨none, .absent, false⟩]) "/g/"
      = [.leaf "Index" "/g/", .leaf "Readme" "/g/"]
  ∧ navLinksUniqueList
      (generateSidebarItems
        (.dir "g" true [.file "index.md" ⟨none, .absent, false⟩,
                        .file "readme.md" ⟨none, .absent, false⟩]) "/g/") = false := by
  exact ⟨rfl, by decide⟩

/-! ## C7: comma-split tags and per-tag dedup by link -/

theorem insertTag_aba (p : TagPageInfo) :
    insertTag (insertTag (insertTag [] "a" p) "b" p) "a" p = [("a", [p]), ("b", [p])] := by
  have h1 : insertTag [] "a" p = [("a", [p])] := rfl
  have h2 : insertTag [("a", [p])] "b" p = [("a", [p]), ("b", [p])] := rfl
  rw [h1, h2]
  simp [insertTag, mapGet]

/-- C7: a markup file whose `tags` string is `"a, b, a"` is recorded
exactly once under tag `a` and exactly once under tag `b`; and inserting a
page whose link is already present under a tag leaves the map unchanged. -/
theorem c7_tag_string_dedup :
    (∀ (name : String) (title : Option String) (b rd : String),
       jsStartsWith name "." = false → jsEndsWith (jsToLower name) ".md" = true →
       scanEntry (.file name ⟨title, .str "a, b, a", false⟩) b rd [] =
         [("a", [⟨getFileLink name b, displayText title name, rd ++ name⟩]),
          ("b", [⟨getFileLink name b, displayText title name, rd ++ name⟩])])
  ∧ (∀ (m : TagsMap) (tag : String) (p : TagPageInfo) (pages : List TagPageInfo),
       mapGet m tag = some pages → pages.any (fun q => q.link == p.link) = true →
       insertTag m tag p = m) := by
  constructor
  · intro name title b rd h1 h2
    have hp : parseTags (TagsField.str "a, b, a") = ["a", "b", "a"] := by decide
    simp only [scanEntry, h1, h2, Bool.false_eq_true, if_false, if_true, hp]
    simpa using insertTag_aba ⟨getFileLink name b, displayText title name, rd ++ name⟩
  · intro m tag p pages hget hdup
    unfold insertTag
    rw [hget]
    simp [hdup]

/-- C7 witness: the round trip on a concrete file, and the dedup law on a
concrete map. -/
theorem c7_tag_string_dedup_witness :
    scanEntry (.file "post.md" ⟨none, .str "a, b, a", false⟩) "/" "" [] =
      [("a", [⟨"/post", "Post", "post.md"⟩]), ("b", [⟨"/post", "Post", "post.md"⟩])]
  ∧ insertTag [("t", [⟨"/x", "X", "x.md"⟩])] "t" ⟨"/x", "Y", "x.md"⟩
      = [("t", [⟨"/x", "X", "x.md"⟩])] := by
  constructor
  · rw [c7_tag_string_dedup.1 "post.md" none "/" "" (by decide) (by decide)]; decide
  · exact c7_tag_string_dedup.2 _ "t" ⟨"/x", "Y", "x.md"⟩ [⟨"/x", "X", "x.md"⟩] rfl (by decide)

/-! ## Laws of the comparison functions -/

theorem natCmp_swap (a b : Nat) : natCmp a b = (natCmp b a).swap := by
  rcases Nat.lt_trichotomy a b with h | h | h
  · have h1 : ¬ b < a := by omega
    have h2 : ¬ b = a := by omega
    simp [natCmp, h, h1, h2, Ordering.swap]
  · subst h
    simp [natCmp, Ordering.swap]
  · have h1 : ¬ a < b := by omega
    have h2 : ¬ a = b := by omega
    simp [natCmp, h, h1, h2, Ordering.swap]

theorem natCmp_eq_eq_iff (a b : Nat) : natCmp a b = .eq ↔ a = b := by
  unfold natCmp
  split_ifs with h1 h2 <;> simp_all
  omega

theorem natCmp_ne_gt_iff (a b : Nat) : natCmp a b ≠ .gt ↔ a ≤ b := by
  unfold natCmp
  split_ifs with h1 h2 <;> simp_all <;> omega

theorem charCmp_swap (a b : Char) : charCmp a b = (charCmp b a).swap :=
  natCmp_swap a.toNat b.toNat

theorem charCmp_eq_of_eq {a b : Char} (h : charCmp a b = .eq) : a.toNat = b.toNat :=
  (natCmp_eq_eq_iff a.toNat b.toNat).mp h

theorem chListCmp_swap (a b : List Char) : chListCmp a b = (chListCmp b a).swap := by
  induction a generalizing b with
  | nil => cases b <;> rfl
  | cons x xs ih =>
      cases b with
      | nil => rfl
      | cons y ys =>
          simp only [chListCmp]
          rw [charCmp_swap x y]
          cases h : charCmp y x <;> simp [Ordering.swap, ih ys]

theorem char_eq_of_toNat_eq {a b : Char} (h : a.toNat = b.toNat) : a = b := by
  exact_mod_cast Char.ofNat_toNat a ▸ Char.ofNat_toNat b ▸ congrArg Char.ofNat h

theorem natCmp_eq_lt_iff (a b : Nat) : natCmp a b = .lt ↔ a < b := by
  unfold natCmp
  split_ifs with h1 h2 <;> simp_all

theorem chListCmp_eq_iff (a b : List Char) : chListCmp a b = .eq ↔ a = b := by
  induction a generalizing b with
  | nil => cases b <;> simp [chListCmp]
  | cons x xs ih =>
      cases b with
      | nil => simp [chListCmp]
      | cons y ys =>
          simp only [chListCmp]
          cases h : charCmp x y with
          | eq =>
              have hxy : x = y := char_eq_of_toNat_eq (charCmp_eq_of_eq h)
              simp [hxy, ih ys]
          | lt =>
              have hne : x ≠ y := by
                intro hxy; subst hxy
                simp [charCmp, natCmp] at h
              simp [hne]
          | gt =>
              have hne : x ≠ y := by
                intro hxy; subst hxy
                simp [charCmp, natCmp] at h
              simp [hne]

theorem chListCmp_trans {a b c : List Char}
    (h1 : chListCmp a b ≠ .gt) (h2 : chListCmp b c ≠ .gt) : chListCmp a c ≠ .gt := by
  induction a generalizing b c with
  | nil => cases c <;> simp [chListCmp]
  | cons x xs ih =>
      cases b with
      | nil => simp [chListCmp] at h1
      | cons y ys =>
          cases c with
          | nil => simp [chListCmp] at h2
          | cons z zs =>
              simp only [chListCmp] at h1 h2 ⊢
              cases hxy : charCmp x y <;> rw [hxy] at h1 <;> [skip; skip; exact absurd rfl h1]
              <;> cases hyz : charCmp y z <;> rw [hyz] at h2 <;>
                [skip; skip; exact absurd rfl h2; skip; skip; exact absurd rfl h2]
              · -- lt, lt
                have hxz : charCmp x z = .lt := by
                  have u := (natCmp_eq_lt_iff x.toNat y.toNat).mp hxy
                  have v := (natCmp_eq_lt_iff y.toNat z.toNat).mp hyz
                  exact (natCmp_eq_lt_iff x.toNat z.toNat).mpr (by omega)
                simp [hxz]
              · -- lt, eq
                have hxz : charCmp x z = .lt := by
                  have u := (natCmp_eq_lt_iff x.toNat y.toNat).mp hxy
                  have v := charCmp_eq_of_eq hyz
                  exact (natCmp_eq_lt_iff x.toNat z.toNat).mpr (by omega)
                simp [hxz]
              · -- eq, lt
                have hxz : charCmp x z = .lt := by
                  have u := charCmp_eq_of_eq hxy
                  have v := (natCmp_eq_lt_iff y.toNat z.toNat).mp hyz
                  exact (natCmp_eq_lt_iff x.toNat z.toNat).mpr (by omega)
                simp [hxz]
              · -- eq, eq
                have hxz : charCmp x z = .eq := by
                  have u := charCmp_eq_of_eq hxy
                  have v := charCmp_eq_of_eq hyz
                  exact (natCmp_eq_eq_iff x.toNat z.toNat).mpr (by omega)
                rw [hxz]
                exact ih h1 h2

theorem strCmp_swap (a b : String) : strCmp a b = (strCmp b a).swap :=
  chListCmp_swap a.data b.data

theorem strCmp_eq_iff (a b : String) : strCmp a b = .eq ↔ a = b := by
  rw [strCmp, chListCmp_eq_iff]
  constructor
  · intro h; cases a; cases b; exact congrArg String.mk h
  · intro h; rw [h]

theorem strCmp_trans {a b c : String}
    (h1 : strCmp a b ≠ .gt) (h2 : strCmp b c ≠ .gt) : strCmp a c ≠ .gt :=
  chListCmp_trans h1 h2

theorem localeCmp_swap (a b : String) : localeCmp a b = (localeCmp b a).swap := by
  unfold localeCmp
  rw [strCmp_swap (jsToLower a) (jsToLower b)]
  cases h : strCmp (jsToLower b) (jsToLower a) <;>
    simp [Ordering.swap, strCmp_swap a b]

theorem localeCmp_trans {a b c : String}
    (h1 : localeCmp a b ≠ .gt) (h2 : localeCmp b c ≠ .gt) : localeCmp a c ≠ .gt := by
  unfold localeCmp at h1 h2 ⊢
  cases hab : strCmp (jsToLower a) (jsToLower b) <;> rw [hab] at h1 <;>
    try exact absurd rfl h1
  all_goals cases hbc : strCmp (jsToLower b) (jsToLower c) <;> rw [hbc] at h2 <;>
    try exact absurd rfl h2
  · -- primary lt, lt
    have hac : strCmp (jsToLower a) (jsToLower c) = .lt := by
      have h := @strCmp_trans (jsToLower a) (jsToLower b) (jsToLower c)
        (by simp [hab]) (by simp [hbc])
      cases hx : strCmp (jsToLower a) (jsToLower c) with
      | lt => rfl
      | gt => exact absurd hx h
      | eq =>
          exfalso
          have he : jsToLower a = jsToLower c := (strCmp_eq_iff _ _).mp hx
          rw [he] at hab
          rw [strCmp_swap (jsToLower c) (jsToLower b)] at hab
          cases hcb : strCmp (jsToLower b) (jsToLower c) <;>
            rw [strCmp_swap] at hcb <;> simp_all [Ordering.swap]
    simp [hac]
  · -- primary lt, secondary eq
    have he : jsToLower b = jsToLower c := (strCmp_eq_iff _ _).mp hbc
    rw [← he, hab]
    simp
  · -- primary eq, then lt
    have he : jsToLower a = jsToLower b := (strCmp_eq_iff _ _).mp hab
    rw [he, hbc]
    simp
  · -- both primaries eq: secondary comparison
    have he1 : jsToLower a = jsToLower b := (strCmp_eq_iff _ _).mp hab
    rw [he1, hbc]
    exact strCmp_trans h1 h2

theorem entrySortCmp_swap (a b : Entry) : entrySortCmp a b = (entrySortCmp b a).swap := by
  unfold entrySortCmp
  cases ha : isIndexMdName a.name <;> cases hb : isIndexMdName b.name <;>
    cases hsa : a.statable <;> cases hsb : b.statable <;>
    cases hda : a.isDir <;> cases hdb : b.isDir <;>
    simp [Ordering.swap, localeCmp_swap a.name b.name]

theorem entrySortCmp_trans {a b c : Entry}
    (hsa : a.statable = true) (hsb : b.statable = true) (hsc : c.statable = true)
    (h1 : entrySortCmp a b ≠ .gt) (h2 : entrySortCmp b c ≠ .gt) :
    entrySortCmp a c ≠ .gt := by
  unfold entrySortCmp at h1 h2 ⊢
  simp only [hsa, hsb, hsc, Bool.and_self] at h1 h2 ⊢
  cases hia : isIndexMdName a.name <;> cases hib : isIndexMdName b.name <;>
    cases hic : isIndexMdName c.name <;>
    cases hda : a.isDir <;> cases hdb : b.isDir <;> cases hdc : c.isDir <;>
    simp_all <;>
    exact localeCmp_trans h1 h2

/-! ## Sortedness of the insertion sort -/

theorem insertBy_pairwise {cmp : α → α → Ordering} {P : α → Prop}
    (hswapne : ∀ a b, P a → P b → cmp a b ≠ .lt → cmp b a ≠ .gt)
    (htrans : ∀ a b c, P a → P b → P c → cmp a b ≠ .gt → cmp b c ≠ .gt → cmp a c ≠ .gt)
    {x : α} {l : List α} (hx : P x) (hl : ∀ y ∈ l, P y)
    (h : l.Pairwise (fun a b => cmp a b ≠ .gt)) :
    (insertBy cmp x l).Pairwise (fun a b => cmp a b ≠ .gt) := by
  induction l with
  | nil => simp [insertBy]
  | cons y ys ih =>
      rcases List.pairwise_cons.mp h with ⟨hy, hys⟩
      simp only [insertBy]
      split
      case isTrue hlt =>
        refine List.pairwise_cons.mpr ⟨?_, h⟩
        intro z hz
        rcases List.mem_cons.mp hz with rfl | hz'
        · rw [hlt]; simp
        · exact htrans x y z hx (hl y (by simp)) (hl z (by simp [hz']))
            (by rw [hlt]; simp) (hy z hz')
      case isFalse hnlt =>
        refine List.pairwise_cons.mpr
          ⟨?_, ih (fun a ha => hl a (by simp [ha])) hys⟩
        intro z hz
        rcases List.mem_cons.mp ((insertBy_perm cmp x ys).mem_iff.mp hz) with rfl | hz'
        · exact hswapne z y hx (hl y (by simp)) hnlt
        · exact hy z hz'

theorem sortBy_pairwise {cmp : α → α → Ordering} (P : α → Prop)
    (hswapne : ∀ a b, P a → P b → cmp a b ≠ .lt → cmp b a ≠ .gt)
    (htrans : ∀ a b c, P a → P b → P c → cmp a b ≠ .gt → cmp b c ≠ .gt → cmp a c ≠ .gt)
    {l : List α} (hl : ∀ y ∈ l, P y) :
    (sortBy cmp l).Pairwise (fun a b => cmp a b ≠ .gt) := by
  suffices h : ∀ (l acc : List α), (∀ y ∈ l, P y) → (∀ y ∈ acc, P y) →
      acc.Pairwise (fun a b => cmp a b ≠ .gt) →
      (l.foldl (fun a x => insertBy cmp x a) acc).Pairwise (fun a b => cmp a b ≠ .gt) by
    exact h l [] hl (by simp) (by simp)
  intro l
  induction l with
  | nil => intro acc _ _ hp; simpa using hp
  | cons x xs ih =>
      intro acc hlp haccp hp
      have hx : P x := hlp x (by simp)
      have hacc' : ∀ y ∈ insertBy cmp x acc, P y := by
        intro y hy
        rcases List.mem_cons.mp ((insertBy_perm cmp x acc).mem_iff.mp hy) with rfl | hy'
        · exact hx
        · exact haccp y hy'
      exact ih (insertBy cmp x acc) (fun a ha => hlp a (by simp [ha])) hacc'
        (insertBy_pairwise hswapne htrans hx haccp hp)

/-! ## The sorted pair list equals the sorted entry list, paired -/

theorem insertBy_map_fst {β : Type} (cmp : α → α → Ordering) (f : α → β)
    (x : α) (l : List α) :
    insertBy (fun p q => cmp p.1 q.1) (x, f x) (l.map (fun e => (e, f e)))
      = (insertBy cmp x l).map (fun e => (e, f e)) := by
  induction l with
  | nil => simp [insertBy]
  | cons y ys ih =>
      simp only [List.map_cons, insertBy]
      split
      · simp
      · simp [ih]

theorem sortBy_map_fst {β : Type} (cmp : α → α → Ordering) (f : α → β) (l : List α) :
    sortBy (fun p q => cmp p.1 q.1) (l.map (fun e => (e, f e)))
      = (sortBy cmp l).map (fun e => (e, f e)) := by
  suffices h : ∀ (l acc : List α),
      (l.map (fun e => (e, f e))).foldl
          (fun a x => insertBy (fun p q => cmp p.1 q.1) x a) (acc.map (fun e => (e, f e)))
        = (l.foldl (fun a x => insertBy cmp x a) acc).map (fun e => (e, f e)) by
    simpa using h l []
  intro l
  induction l with
  | nil => intro acc; simp
  | cons x xs ih =>
      intro acc
      simp only [List.map_cons, List.foldl_cons]
      rw [insertBy_map_fst, ih]

theorem pairUp_eq_map (es : List Entry) (b : String) :
    pairUp es b = es.map (fun e => (e, processEntry e b)) := by
  induction es with
  | nil => rfl
  | cons e rest ih => simp [pairUp, ih]

theorem dirItems_eq_sorted (es : List Entry) (b : String) :
    dirItems es b = (sortBy entrySortCmp es).filterMap (fun e => processEntry e b) := by
  unfold dirItems
  rw [pairUp_eq_map, sortBy_map_fst entrySortCmp (fun e => processEntry e b) es,
    List.filterMap_map]
  rfl

/-! ## C6: traversal order of the structural walk -/

theorem isFile_isDir_false {e : Entry} (he : e.isFile = true) : e.isDir = false := by
  cases e <;> simp_all [Entry.isFile, Entry.isDir]

theorem entrySortCmp_rank_of_ne_gt {a b : Entry}
    (hsa : a.statable = true) (hsb : b.statable = true)
    (hia : isIndexMdName a.name = true → a.isFile = true)
    (hib : isIndexMdName b.name = true → b.isFile = true)
    (h : entrySortCmp a b ≠ .gt) :
    entryRank a < entryRank b ∨ (entryRank a = entryRank b ∧ localeCmp a.name b.name ≠ .gt) := by
  unfold entrySortCmp at h
  unfold entryRank
  simp only [hsa, hsb, Bool.and_self] at h
  cases hA : isIndexMdName a.name <;> cases hB : isIndexMdName b.name <;>
    simp only [hA, hB] at h ⊢
  · -- neither is an index file: directories before files, then locale order
    cases hda : a.isDir <;> cases hdb : b.isDir <;> simp_all
  · -- a not index, b index: the comparator returns gt, contradiction
    simp at h
  · -- a index, b not index: rank 0 versus 1/2
    cases b.isDir <;> simp
  · -- both index files: both are files, so the directory test ties
    have hda : a.isDir = false := isFile_isDir_false (hia hA)
    have hdb : b.isDir = false := isFile_isDir_false (hib hB)
    simp_all

/-- C6: for a readable directory whose entries can all be `stat`ed and
whose index/readme-named entries are files, the walk emits exactly the
per-entry contributions in sorted order, where the sort is a permutation
of the listing ordered as: index/readme markup files first, then
subdirectories, then plain files, each partition ordered by the locale
comparison of the raw names. -/
theorem c6_traversal_order (name : String) (es : List Entry) (b : String)
    (hstat : ∀ e ∈ es, e.statable = true)
    (hidx : ∀ e ∈ es, isIndexMdName e.name = true → e.isFile = true) :
    generateSidebarItems (.dir name true es) b
      = (sortBy entrySortCmp es).filterMap (fun e => processEntry e (fixSlash b))
  ∧ (sortBy entrySortCmp es).Perm es
  ∧ (sortBy entrySortCmp es).Pairwise (fun a b =>
      entryRank a < entryRank b
      ∨ (entryRank a = entryRank b ∧ localeCmp a.name b.name ≠ .gt)) := by
  refine ⟨dirItems_eq_sorted es (fixSlash b), sortBy_perm entrySortCmp es, ?_⟩
  have hp : (sortBy entrySortCmp es).Pairwise (fun a b => entrySortCmp a b ≠ .gt) :=
    sortBy_pairwise (fun (e : Entry) => e.statable = true)
      (fun a b _ _ hne hgt => hne (by rw [entrySortCmp_swap a b, hgt]; rfl))
      (fun a b c Pa Pb Pc h1 h2 => entrySortCmp_trans Pa Pb Pc h1 h2)
      hstat
  refine hp.imp_of_mem ?_
  intro x y hx hy hr
  exact entrySortCmp_rank_of_ne_gt
    (hstat x (mem_sortBy.mp hx)) (hstat y (mem_sortBy.mp hy))
    (hidx x (mem_sortBy.mp hx)) (hidx y (mem_sortBy.mp hy)) hr

/-- C6 witness: the order property instantiated on a concrete directory
listing containing an upper-case readme, a subdirectory and two plain
files. -/
theorem c6_traversal_order_witness :
    generateSidebarItems
        (.dir "d" true
          [.file "b.md" ⟨none, .absent, false⟩,
           .dir "z" true [.file "x.md" ⟨none, .absent, false⟩],
           .file "README.MD" ⟨none, .absent, false⟩,
           .file "a.md" ⟨none, .absent, false⟩]) "/d/"
      = (sortBy entrySortCmp
          [.file "b.md" ⟨none, .absent, false⟩,
           .dir "z" true [.file "x.md" ⟨none, .absent, false⟩],
           .file "README.MD" ⟨none, .absent, false⟩,
           .file "a.md" ⟨none, .absent, false⟩]).filterMap
            (fun e => processEntry e (fixSlash "/d/"))
  ∧ (sortBy entrySortCmp
      [.file "b.md" ⟨none, .absent, false⟩,
       .dir "z" true [.file "x.md" ⟨none, .absent, false⟩],
       .file "README.MD" ⟨none, .absent, false⟩,
       .file "a.md" ⟨none, .absent, false⟩]).Perm
      [.file "b.md" ⟨none, .absent, false⟩,
       .dir "z" true [.file "x.md" ⟨none, .absent, false⟩,],
       .file "README.MD" ⟨none, .absent, false⟩,
       .file "a.md" ⟨none, .absent, false⟩]
  ∧ (sortBy entrySortCmp
      [.file "b.md" ⟨none, .absent, false⟩,
       .dir "z" true [.file "x.md" ⟨none, .absent, false⟩],
       .file "README.MD" ⟨none, .absent, false⟩,
       .file "a.md" ⟨none, .absent, false⟩]).Pairwise (fun a b =>
        entryRank a < entryRank b
        ∨ (entryRank a = entryRank b ∧ localeCmp a.name b.name ≠ .gt)) :=
  c6_traversal_order "d"
    [.file "b.md" ⟨none, .absent, false⟩,
     .dir "z" true [.file "x.md" ⟨none, .absent, false⟩],
     .file "README.MD" ⟨none, .absent, false⟩,
     .file "a.md" ⟨none, .absent, false⟩] "/d/"
    (by decide) (by decide)

/-! ## C9: pruning of markup-free trees and of the Tags group -/

theorem listNoVisibleMd_mem {es : List Entry} (h : listNoVisibleMd es = true)
    {e : Entry} (he : e ∈ es) : entryNoVisibleMd e = true := by
  induction es with
  | nil => cases he
  | cons x xs ih =>
      simp only [listNoVisibleMd, Bool.and_eq_true] at h
      rcases List.mem_cons.mp he with rfl | he'
      · exact h.1
      · exact ih h.2 he'

theorem listNoTags_mem {es : List Entry} (h : listNoTags es = true)
    {e : Entry} (he : e ∈ es) : entryNoTags e = true := by
  induction es with
  | nil => cases he
  | cons x xs ih =>
      simp only [listNoTags, Bool.and_eq_true] at h
      rcases List.mem_cons.mp he with rfl | he'
      · exact h.1
      · exact ih h.2 he'

theorem noVisibleMd_aux (n : Nat) :
    (∀ (e : Entry), sizeOf e ≤ n → entryNoVisibleMd e = true →
       ∀ b, processEntry e b = none)
  ∧ (∀ (es : List Entry), sizeOf es ≤ n → listNoVisibleMd es = true →
       ∀ b, dirItems es b = []) := by
  induction n with
  | zero =>
      constructor
      · intro e he
        exfalso
        cases e <;> simp_all
      · intro es he hno b
        cases es with
        | nil => rfl
        | cons x xs => exfalso; simp_all
  | succ n ih =>
      constructor
      · intro e he hno b
        cases e with
        | broken m => rfl
        | file nm meta =>
            simp only [entryNoVisibleMd, Bool.or_eq_true] at hno
            simp only [processEntry]
            rcases hno with h1 | h2
            · simp [h1]
            · cases hh : jsStartsWith nm "."
              · simp only [Bool.not_eq_true'] at h2
                simp [hh, h2]
              · simp [hh]
        | dir nm r es =>
            simp only [entryNoVisibleMd, Bool.or_eq_true] at hno
            cases hh : jsStartsWith nm "."
            · have hno' : listNoVisibleMd es = true := by
                rcases hno with h1 | h2
                · rw [hh] at h1; cases h1
                · exact h2
              have hsz : sizeOf es ≤ n := by
                have := Entry.dir.sizeOf_spec nm r es
                omega
              have hemp : dirItems es (b ++ nm ++ "/") = [] :=
                ih.2 es hsz hno' (b ++ nm ++ "/")
              simp only [processEntry, hh]
              rw [show (sortBy (fun p q => entrySortCmp p.1 q.1)
                    (pairUp es (b ++ nm ++ "/"))).filterMap Prod.snd
                  = dirItems es (b ++ nm ++ "/") from rfl, hemp]
              cases r <;> simp
            · simp [processEntry, hh]
      · intro es he hno b
        unfold dirItems
        apply List.filterMap_eq_nil_iff.mpr
        intro p hp
        have hp' : p ∈ pairUp es b := mem_sortBy.mp hp
        rw [pairUp_eq_map] at hp'
        obtain ⟨e', he', rfl⟩ := List.mem_map.mp hp'
        have hsz : sizeOf e' ≤ n := by
          have h1 := List.sizeOf_lt_of_mem he'
          omega
        exact ih.1 e' hsz (listNoVisibleMd_mem hno he') b

theorem noTags_aux (n : Nat) :
    (∀ (e : Entry), sizeOf e ≤ n → entryNoTags e = true →
       ∀ b rd m, scanEntry e b rd m = m)
  ∧ (∀ (es : List Entry), sizeOf es ≤ n → listNoTags es = true →
       ∀ b rd m, scanList es b rd m = m) := by
  induction n with
  | zero =>
      constructor
      · intro e he
        exfalso
        cases e <;> simp_all
      · intro es he hno b rd m
        cases es with
        | nil => rfl
        | cons x xs => exfalso; simp_all
  | succ n ih =>
      constructor
      · intro e he hno b rd m
        cases e with
        | broken nm => rfl
        | file nm meta =>
            simp only [entryNoTags] at hno
            simp only [scanEntry]
            cases hh : jsStartsWith nm "."
            · cases hmd : jsEndsWith (jsToLower nm) ".md"
              · simp [hh, hmd]
              · cases hre : meta.readError
                · simp only [List.isEmpty_eq_true] at hno
                  simp [hh, hmd, hre, hno]
                · simp [hh, hmd, hre]
            · simp [hh]
        | dir nm r es =>
            simp only [entryNoTags] at hno
            have hsz : sizeOf es ≤ n := by
              have := Entry.dir.sizeOf_spec nm r es
              omega
            simp only [scanEntry]
            cases hh : jsStartsWith nm "."
            · cases r
              · simp [hh]
              · simp only [hh, Bool.false_eq_true, if_false, if_true]
                exact ih.2 es hsz hno _ _ m
            · simp [hh]
      · intro es he hno b rd m
        cases es with
        | nil => rfl
        | cons x xs =>
            simp only [listNoTags, Bool.and_eq_true] at hno
            have hsx : sizeOf x ≤ n := by simp at he; omega
            have hsxs : sizeOf xs ≤ n := by simp at he; omega
            simp only [scanList]
            rw [ih.1 x hsx hno.1 b rd m]
            exact ih.2 xs hsxs hno.2 b rd m

/-- C9: a directory tree with no visible markup file yields an empty
structural walk and no emitted group, and when no file in the tree
declares a tag the synthetic Tags group is absent — the model is the same
as with tag inclusion disabled. -/
theorem c9_empty_pruning :
    (∀ (name : String) (es : List Entry) (b : String), listNoVisibleMd es = true →
        generateSidebarItems (.dir name true es) b = [])
  ∧ (∀ (e : Entry) (b : String), entryNoVisibleMd e = true → processEntry e b = none)
  ∧ (∀ (root : RootFs) (b : String), rootNoTags root = true →
        generateTagsSidebarGroup root b = none
        ∧ generateSidebar root b true = generateSidebar root b false) := by
  refine ⟨?_, ?_, ?_⟩
  · intro name es b h
    exact (noVisibleMd_aux (sizeOf es)).2 es (Nat.le_refl _) h (fixSlash b)
  · intro e b h
    exact (noVisibleMd_aux (sizeOf e)).1 e (Nat.le_refl _) h b
  · intro root b h
    have hscan : scanRootForTags root b = [] := by
      cases root with
      | missing => rfl
      | present r es =>
          cases r
          · rfl
          · simp only [rootNoTags] at h
            simp only [scanRootForTags]
            exact (noTags_aux (sizeOf es)).2 es (Nat.le_refl _) h (fixSlash b) "" []
    have htags : generateTagsSidebarGroup root b = none := by
      unfold generateTagsSidebarGroup
      rw [hscan]
      rfl
    refine ⟨htags, ?_⟩
    unfold generateSidebar
    rw [htags]
    simp

/-- C9 witness: a tree with only hidden/non-markup entries walks to the
empty list, and a tagless tree produces no Tags group. -/
theorem c9_empty_pruning_witness :
    generateSidebarItems
        (.dir "d" true [.file "notes.txt" ⟨none, .absent, false⟩,
                        .file ".secret.md" ⟨none, .absent, false⟩,
                        .dir "sub" true [.file "data.json" ⟨none, .absent, false⟩]]) "/d/"
      = []
  ∧ processEntry (.dir "sub" true [.file "data.json" ⟨none, .absent, false⟩]) "/" = none
  ∧ (generateTagsSidebarGroup
        (.present true [.dir "g" true [.file "a.md" ⟨some "A", .str "", false⟩]]) "/" = none
     ∧ generateSidebar
        (.present true [.dir "g" true [.file "a.md" ⟨some "A", .str "", false⟩]]) "/" true
       = generateSidebar
        (.present true [.dir "g" true [.file "a.md" ⟨some "A", .str "", false⟩]]) "/" false) :=
  ⟨c9_empty_pruning.1 "d"
      [.file "notes.txt" ⟨none, .absent, false⟩,
       .file ".secret.md" ⟨none, .absent, false⟩,
       .dir "sub" true [.file "data.json" ⟨none, .absent, false⟩]] "/d/" (by decide),
   c9_empty_pruning.2.1 (.dir "sub" true [.file "data.json" ⟨none, .absent, false⟩]) "/"
      (by decide),
   c9_empty_pruning.2.2
      (.present true [.dir "g" true [.file "a.md" ⟨some "A", .str "", false⟩]]) "/"
      (by decide)⟩

/-! ## C1 (amended): link uniqueness inside tag-derived groups -/

theorem navLinksUnique_group (t : String) (its : List SidebarItem) (c : Bool) :
    navLinksUnique (.group t its c) = navLinksUniqueList its := rfl

theorem navLinksUniqueAll_iff {items : List SidebarItem} :
    navLinksUniqueAll items = true ↔ ∀ i ∈ items, navLinksUnique i = true := by
  induction items with
  | nil => simp [navLinksUniqueAll]
  | cons x xs ih => simp [navLinksUniqueAll, ih]

theorem navLinksUniqueList_iff {items : List SidebarItem} :
    navLinksUniqueList items = true ↔
      (items.filterMap SidebarItem.link).Nodup ∧ ∀ i ∈ items, navLinksUnique i = true := by
  simp [navLinksUniqueList, nodupBool, navLinksUniqueAll_iff]

theorem navLinksUniqueList_of_perm {l1 l2 : List SidebarItem} (h : l1.Perm l2)
    (hu : navLinksUniqueList l1 = true) : navLinksUniqueList l2 = true := by
  rw [navLinksUniqueList_iff] at hu ⊢
  exact ⟨(h.filterMap SidebarItem.link).nodup_iff.mp hu.1,
    fun i hi => hu.2 i (h.mem_iff.mpr hi)⟩

theorem replaceFirstGroup_links (dn : String) (f : List SidebarItem → List SidebarItem)
    (L : List SidebarItem) :
    (replaceFirstGroup dn f L).filterMap SidebarItem.link
      = L.filterMap SidebarItem.link := by
  induction L with
  | nil => rfl
  | cons i is ih =>
      cases i with
      | leaf t l => simp [replaceFirstGroup, SidebarItem.link, ih]
      | group t its c =>
          by_cases ht : (t == dn) = true
          · simp [replaceFirstGroup, ht, SidebarItem.link]
          · simp only [replaceFirstGroup, ht]
            simp [SidebarItem.link, ih]

theorem replaceFirstGroup_unique (dn : String) (f : List SidebarItem → List SidebarItem)
    (hf : ∀ its, navLinksUniqueList its = true → navLinksUniqueList (f its) = true)
    (L : List SidebarItem) (hu : navLinksUniqueList L = true) :
    navLinksUniqueList (replaceFirstGroup dn f L) = true := by
  induction L with
  | nil => exact hu
  | cons i is ih =>
      rw [navLinksUniqueList_iff] at hu
      have hnodup := hu.1
      have hall := hu.2
      have his : navLinksUniqueList is = true := by
        rw [navLinksUniqueList_iff]
        constructor
        · rcases i with ⟨t, l⟩ | ⟨t, its, c⟩
          · exact (List.nodup_cons.mp (by simpa [SidebarItem.link] using hnodup)).2
          · simpa [SidebarItem.link] using hnodup
        · exact fun j hj => hall j (by simp [hj])
      cases i with
      | leaf t l =>
          simp only [replaceFirstGroup]
          rw [navLinksUniqueList_iff]
          constructor
          · rw [show (SidebarItem.leaf t l :: replaceFirstGroup dn f is).filterMap
                SidebarItem.link
              = l :: (replaceFirstGroup dn f is).filterMap SidebarItem.link from rfl,
              replaceFirstGroup_links]
            simpa [SidebarItem.link] using hnodup
          · intro j hj
            rcases List.mem_cons.mp hj with rfl | hj'
            · rfl
            · exact (navLinksUniqueList_iff.mp (ih his)).2 j hj'
      | group t its c =>
          by_cases ht : (t == dn) = true
          · simp only [replaceFirstGroup, ht, if_true]
            rw [navLinksUniqueList_iff]
            constructor
            · simpa [SidebarItem.link] using hnodup
            · intro j hj
              rcases List.mem_cons.mp hj with rfl | hj'
              · rw [navLinksUnique_group]
                exact hf its (by rw [← navLinksUnique_group t its c]; exact hall _ (by simp))
              · exact hall j (by simp [hj'])
          · have ht' : (t == dn) = false := by simpa using ht
            simp only [replaceFirstGroup, ht', Bool.false_eq_true, if_false]
            rw [navLinksUniqueList_iff]
            constructor
            · rw [show ((SidebarItem.group t its c) :: replaceFirstGroup dn f is).filterMap
                  SidebarItem.link
                = (replaceFirstGroup dn f is).filterMap SidebarItem.link from rfl,
                replaceFirstGroup_links]
              simpa [SidebarItem.link] using hnodup
            · intro j hj
              rcases List.mem_cons.mp hj with rfl | hj'
              · exact hall _ (by simp)
              · exact (navLinksUniqueList_iff.mp (ih his)).2 j hj'

theorem insertPage_unique (segs : List String) (link text : String) :
    ∀ (parent : List SidebarItem), navLinksUniqueList parent = true →
      navLinksUniqueList (insertPageIntoStructure segs parent link text) = true := by
  induction segs with
  | nil => intro parent hu; exact hu
  | cons s rest ih =>
      intro parent hu
      cases rest with
      | nil =>
          simp only [insertPageIntoStructure]
          split
          · exact hu
          case isFalse hany =>
            have hany' : ∀ i ∈ parent, ¬ (i.link == some link) = true :=
              List.any_eq_false.mp (by simpa using hany)
            apply navLinksUniqueList_of_perm (sortBy_perm sidebarItemSorter _).symm
            rw [navLinksUniqueList_iff]
            constructor
            · rw [List.filterMap_append]
              rw [show List.filterMap SidebarItem.link [SidebarItem.leaf text link]
                  = [link] from rfl]
              rw [List.nodup_append]
              refine ⟨(navLinksUniqueList_iff.mp hu).1, by simp, ?_⟩
              intro a ha hb
              rcases List.mem_filterMap.mp ha with ⟨i, hi, hlink⟩
              have hb' : a = link := by simpa using hb
              subst hb'
              exact hany' i hi (by rw [hlink]; simp)
            · intro i hi
              rcases List.mem_append.mp hi with hi' | hi'
              · exact (navLinksUniqueList_iff.mp hu).2 i hi'
              · have : i = SidebarItem.leaf text link := by simpa using hi'
                subst this
                rfl
      | cons s2 rest2 =>
          simp only [insertPageIntoStructure]
          split
          · exact replaceFirstGroup_unique (cleanName s) _
              (fun its h => ih its h) parent hu
          · apply replaceFirstGroup_unique (cleanName s) _ (fun its h => ih its h)
            apply navLinksUniqueList_of_perm (sortBy_perm sidebarItemSorter _).symm
            rw [navLinksUniqueList_iff]
            constructor
            · rw [List.filterMap_append]
              rw [show List.filterMap SidebarItem.link
                    [SidebarItem.group (cleanName s) [] true] = [] from rfl]
              rw [List.append_nil]
              exact (navLinksUniqueList_iff.mp hu).1
            · intro i hi
              rcases List.mem_append.mp hi with hi' | hi'
              · exact (navLinksUniqueList_iff.mp hu).2 i hi'
              · have : i = SidebarItem.group (cleanName s) [] true := by simpa using hi'
                subst this
                rfl

theorem buildTagRootItems_unique (pages : List TagPageInfo) :
    navLinksUniqueList (buildTagRootItems pages) = true := by
  unfold buildTagRootItems
  suffices h : ∀ (ps : List TagPageInfo) (acc : List SidebarItem),
      navLinksUniqueList acc = true →
      navLinksUniqueList (ps.foldl
        (fun acc page =>
          let segments := (jsSplitOnChar '/' page.relativePath).filter (fun s => !s.isEmpty)
          if !segments.isEmpty then insertPageIntoStructure segments acc page.link page.text
          else acc) acc) = true by
    exact h pages [] (by decide)
  intro ps
  induction ps with
  | nil => intro acc h; exact h
  | cons p ps ih =>
      intro acc h
      simp only [List.foldl_cons]
      apply ih
      dsimp only
      split
      · exact insertPage_unique _ p.link p.text acc h
      · exact h

/-- C1 (amended): every group produced by the tag-group structurer — the
Tags group, each per-tag group, and every nested directory group inside
them — has pairwise distinct leaf links in its immediate child list. -/
theorem c1_tag_groups_links_unique (root : RootFs) (b : String) (g : SidebarItem)
    (h : generateTagsSidebarGroup root b = some g) : navLinksUnique g = true := by
  unfold generateTagsSidebarGroup at h
  by_cases he : (scanRootForTags root b).isEmpty = true
  · rw [if_pos he] at h
    cases h
  · rw [if_neg he] at h
    have hg := Option.some_inj.mp h
    subst hg
    show navLinksUnique (SidebarItem.group "Tags"
      ((sortBy localeCmp ((scanRootForTags root b).map Prod.fst)).map
        (fun tag => SidebarItem.group tag
          (buildTagRootItems ((mapGet (scanRootForTags root b) tag).getD [])) true)) true)
      = true
    rw [navLinksUnique_group, navLinksUniqueList_iff]
    constructor
    · rw [List.filterMap_map]
      have hnil : List.filterMap
          (SidebarItem.link ∘ fun tag => SidebarItem.group tag
            (buildTagRootItems ((mapGet (scanRootForTags root b) tag).getD [])) true)
          (sortBy localeCmp ((scanRootForTags root b).map Prod.fst)) = [] :=
        List.filterMap_eq_nil_iff.mpr (fun a _ => rfl)
      rw [hnil]
      exact List.nodup_nil
    · intro i hi
      rcases List.mem_map.mp hi with ⟨tag, _, rfl⟩
      rw [navLinksUnique_group]
      exact buildTagRootItems_unique _

/-- C1 witness: the uniqueness invariant on a concretely computed tag
group. -/
theorem c1_tag_groups_links_unique_witness :
    navLinksUnique (.group "Tags" [.group "t" [.leaf "A" "/a"] true] true) = true :=
  c1_tag_groups_links_unique
    (.present true [.file "a.md" ⟨none, .str "t", false⟩]) "/"
    (.group "Tags" [.group "t" [.leaf "A" "/a"] true] true) rfl

/-! ## C10: loose files at the content root -/

theorem mapGet_updatePages_self {m : TagsMap} {k : String} {v : List TagPageInfo}
    (p : TagPageInfo) (h : mapGet m k = some v) :
    mapGet (updatePages m k p) k = some (v ++ [p]) := by
  induction m with
  | nil => simp [mapGet] at h
  | cons e rest ih =>
      obtain ⟨k0, v0⟩ := e
      by_cases hk : (k0 == k) = true
      · simp only [mapGet, List.find?] at h
        rw [hk] at h
        simp only [Option.map_some] at h
        simp only [updatePages, hk, if_true]
        simp only [mapGet, List.find?, hk]
        have hv : v0 = v := by simpa using h
        simp [hv]
      · have hk' : (k0 == k) = false := by simpa using hk
        simp only [mapGet, List.find?] at h
        rw [hk'] at h
        simp only [updatePages, hk', Bool.false_eq_true, if_false]
        simp only [mapGet, List.find?, hk']
        exact ih h

theorem mapGet_updatePages_other {m : TagsMap} {k k' : String}
    (p : TagPageInfo) (h : (k' == k) = false) :
    mapGet (updatePages m k p) k' = mapGet m k' := by
  induction m with
  | nil => rfl
  | cons e rest ih =>
      obtain ⟨k0, v0⟩ := e
      by_cases hk : (k0 == k) = true
      · have hk0 : k0 = k := by simpa using hk
        subst hk0
        simp only [updatePages, hk, if_true]
        have hne : (k0 == k') = false := by
          by_cases he : k0 = k'
          · subst he; simp at h
          · exact beq_eq_false_iff_ne.mpr he
        simp [mapGet, List.find?, hne]
      · have hk' : (k0 == k) = false := by simpa using hk
        simp only [updatePages, hk', Bool.false_eq_true, if_false]
        by_cases hq : (k0 == k') = true
        · simp [mapGet, List.find?, hq]
        · have hq' : (k0 == k') = false := by simpa using hq
          simp only [mapGet, List.find?, hq']
          exact ih

theorem mapGet_append_single_self {m : TagsMap} {k : String}
    (p : TagPageInfo) (h : mapGet m k = none) :
    mapGet (m ++ [(k, [p])]) k = some [p] := by
  induction m with
  | nil => simp [mapGet, List.find?]
  | cons e rest ih =>
      obtain ⟨k0, v0⟩ := e
      simp only [mapGet, List.find?] at h ⊢
      by_cases hk : (k0 == k) = true
      · rw [hk] at h; simp at h
      · have hk' : (k0 == k) = false := by simpa using hk
        rw [hk'] at h ⊢
        simp only [List.cons_append, List.find?, hk']
        exact ih h

theorem mapGet_append_single_other {m : TagsMap} {k k' : String}
    (p : TagPageInfo) (h : (k' == k) = false) :
    mapGet (m ++ [(k, [p])]) k' = mapGet m k' := by
  induction m with
  | nil =>
      have hkk : (k == k') = false := by
        by_cases he : k = k'
        · subst he; simp at h
        · exact beq_eq_false_iff_ne.mpr he
      simp [mapGet, List.find?, hkk]
  | cons e rest ih =>
      obtain ⟨k0, v0⟩ := e
      simp only [List.cons_append, mapGet, List.find?]
      by_cases hq : (k0 == k') = true
      · simp [hq]
      · have hq' : (k0 == k') = false := by simpa using hq
        rw [hq']
        exact ih

theorem String.mk_isEmpty_false {l : List Char} (h : l ≠ []) :
    (String.mk l).isEmpty = false := by
  rw [Bool.eq_false_iff]
  intro hx
  exact h (congrArg String.data ((String.isEmpty_iff _).mp hx))

theorem insertTag_eq_append {m : TagsMap} {k : String} (p : TagPageInfo)
    (hget : mapGet m k = none) : insertTag m k p = m ++ [(k, [p])] := by
  unfold insertTag
  rw [hget]

theorem insertTag_eq_self {m : TagsMap} {k : String} {v : List TagPageInfo}
    (p : TagPageInfo) (hget : mapGet m k = some v)
    (hdup : (v.any (fun q0 => q0.link == p.link)) = true) : insertTag m k p = m := by
  unfold insertTag
  rw [hget]
  simp [hdup]

theorem insertTag_eq_update {m : TagsMap} {k : String} {v : List TagPageInfo}
    (p : TagPageInfo) (hget : mapGet m k = some v)
    (hdup : (v.any (fun q0 => q0.link == p.link)) = false) :
    insertTag m k p = updatePages m k p := by
  unfold insertTag
  rw [hget]
  simp [hdup]

theorem insertTag_pages_mono {m : TagsMap} {k' : String} {q : TagPageInfo}
    (k : String) (p : TagPageInfo)
    (hq : q ∈ (mapGet m k').getD []) :
    q ∈ (mapGet (insertTag m k p) k').getD [] := by
  cases hget : mapGet m k with
  | none =>
      rw [insertTag_eq_append p hget]
      by_cases hk : k' = k
      · subst hk
        rw [hget] at hq
        simp at hq
      · rw [mapGet_append_single_other p (beq_eq_false_iff_ne.mpr hk)]
        exact hq
  | some v =>
      by_cases hdup : (v.any (fun q0 => q0.link == p.link)) = true
      · rw [insertTag_eq_self p hget hdup]
        exact hq
      · rw [insertTag_eq_update p hget (by simpa using hdup)]
        by_cases hk : k' = k
        · subst hk
          rw [mapGet_updatePages_self p hget]
          rw [hget] at hq
          simp only [Option.getD_some] at hq ⊢
          exact List.mem_append_left _ hq
        · rw [mapGet_updatePages_other p (beq_eq_false_iff_ne.mpr hk)]
          exact hq

theorem insertTag_pages_subset {m : TagsMap} {k' : String} {q : TagPageInfo}
    (k : String) (p : TagPageInfo)
    (hq : q ∈ (mapGet (insertTag m k p) k').getD []) :
    q ∈ (mapGet m k').getD [] ∨ q = p := by
  cases hget : mapGet m k with
  | none =>
      rw [insertTag_eq_append p hget] at hq
      by_cases hk : k' = k
      · subst hk
        rw [mapGet_append_single_self p hget] at hq
        simp at hq
        exact Or.inr hq
      · rw [mapGet_append_single_other p (beq_eq_false_iff_ne.mpr hk)] at hq
        exact Or.inl hq
  | some v =>
      by_cases hdup : (v.any (fun q0 => q0.link == p.link)) = true
      · rw [insertTag_eq_self p hget hdup] at hq
        exact Or.inl hq
      · rw [insertTag_eq_update p hget (by simpa using hdup)] at hq
        by_cases hk : k' = k
        · subst hk
          rw [mapGet_updatePages_self p hget] at hq
          simp only [Option.getD_some] at hq
          rcases List.mem_append.mp hq with h1 | h1
          · rw [hget]; exact Or.inl (by simpa using h1)
          · exact Or.inr (by simpa using h1)
        · rw [mapGet_updatePages_other p (beq_eq_false_iff_ne.mpr hk)] at hq
          exact Or.inl hq

theorem insertTag_link_exists (m : TagsMap) (k : String) (p : TagPageInfo) :
    ∃ q ∈ (mapGet (insertTag m k p) k).getD [], q.link = p.link := by
  cases hget : mapGet m k with
  | none =>
      rw [insertTag_eq_append p hget, mapGet_append_single_self p hget]
      exact ⟨p, by simp, rfl⟩
  | some v =>
      by_cases hdup : (v.any (fun q0 => q0.link == p.link)) = true
      · rw [insertTag_eq_self p hget hdup, hget]
        obtain ⟨q, hq, hql⟩ := List.any_eq_true.mp hdup
        exact ⟨q, by simpa using hq, by simpa using hql⟩
      · rw [insertTag_eq_update p hget (by simpa using hdup),
          mapGet_updatePages_self p hget]
        exact ⟨p, by simp, rfl⟩

theorem foldTags_pages_mono {k' : String} {L : String} (p : TagPageInfo) :
    ∀ (tags : List String) (m : TagsMap),
      (∃ q ∈ (mapGet m k').getD [], q.link = L) →
      ∃ q ∈ (mapGet (tags.foldl
          (fun acc tag => insertTag acc (jsTrim tag) p) m) k').getD [], q.link = L := by
  intro tags
  induction tags with
  | nil => intro m h; exact h
  | cons t ts ih =>
      intro m h
      simp only [List.foldl_cons]
      apply ih
      obtain ⟨q, hq, hql⟩ := h
      exact ⟨q, insertTag_pages_mono (jsTrim t) p hq, hql⟩

theorem foldTags_pages_subset {k' : String} (p : TagPageInfo) :
    ∀ (tags : List String) (m : TagsMap) (q : TagPageInfo),
      q ∈ (mapGet (tags.foldl
          (fun acc tag => insertTag acc (jsTrim tag) p) m) k').getD [] →
      q ∈ (mapGet m k').getD [] ∨ q = p := by
  intro tags
  induction tags with
  | nil => intro m q h; exact Or.inl h
  | cons t ts ih =>
      intro m q h
      simp only [List.foldl_cons] at h
      rcases ih (insertTag m (jsTrim t) p) q h with h1 | h1
      · exact insertTag_pages_subset (jsTrim t) p h1
      · exact Or.inr h1

theorem foldTags_establish (p : TagPageInfo) :
    ∀ (tags : List String) (m : TagsMap) (tag : String), tag ∈ tags →
      ∃ q ∈ (mapGet (tags.foldl
          (fun acc tg => insertTag acc (jsTrim tg) p) m) (jsTrim tag)).getD [],
        q.link = p.link := by
  intro tags
  induction tags with
  | nil => intro m tag h; cases h
  | cons t ts ih =>
      intro m tag h
      simp only [List.foldl_cons]
      rcases List.mem_cons.mp h with rfl | h'
      · exact foldTags_pages_mono p ts _ (insertTag_link_exists m (jsTrim tag) p)
      · exact ih _ tag h'

theorem splitOnCharGo_filter_ne_nil {sep : Char} :
    ∀ (l acc : List Char), ((∃ c ∈ l, c ≠ sep) ∨ (∃ c ∈ acc, c ≠ sep)) →
      ((splitOnCharGo sep acc l).map String.mk).filter (fun s => !s.isEmpty) ≠ [] := by
  intro l
  induction l with
  | nil =>
      intro acc h
      rcases h with ⟨c, hc, _⟩ | ⟨c, hc, hcs⟩
      · cases hc
      · have hne : acc.reverse ≠ [] := by
          intro hx
          rw [List.reverse_eq_nil_iff] at hx
          subst hx
          cases hc
        simp only [splitOnCharGo, List.map_cons, List.map_nil]
        rw [List.filter_cons]
        rw [String.mk_isEmpty_false hne]
        simp
  | cons c rest ih =>
      intro acc h
      by_cases hcsep : c = sep
      · subst hcsep
        simp only [splitOnCharGo, if_pos rfl, if_true]
        have hrest : (∃ d ∈ rest, d ≠ c) ∨ (∃ d ∈ acc, d ≠ c) := by
          rcases h with ⟨d, hd, hds⟩ | ⟨d, hd, hds⟩
          · rcases List.mem_cons.mp hd with rfl | hd'
            · exact absurd rfl hds
            · exact Or.inl ⟨d, hd', hds⟩
          · exact Or.inr ⟨d, hd, hds⟩
        rcases hrest with hr | hr
        · have := ih [] (Or.inl hr)
          try simp only [List.map_cons]
          rw [List.filter_cons]
          split
          · simp
          · exact this
        · obtain ⟨d, hd, hds⟩ := hr
          have hne : acc.reverse ≠ [] := by
            intro hx
            rw [List.reverse_eq_nil_iff] at hx
            subst hx
            cases hd
          try simp only [List.map_cons]
          rw [List.filter_cons]
          rw [String.mk_isEmpty_false hne]
          simp
      · simp only [splitOnCharGo, if_neg hcsep]
        exact ih (c :: acc) (Or.inr ⟨c, by simp, hcsep⟩)

theorem exists_ne_slash_of_endsWith_md {name : String}
    (h : jsEndsWith (jsToLower name) ".md" = true) :
    ∃ c ∈ name.data, c ≠ '/' := by
  unfold jsEndsWith jsToLower at h
  have h' : List.isPrefixOf ['d', 'm', '.'] (List.map Char.toLower name.data.reverse)
      = true := by simpa [List.map_reverse] using h
  rcases hr : name.data.reverse with _ | ⟨c0, cs⟩
  · rw [hr] at h'
    simp [List.isPrefixOf] at h'
  · rw [hr] at h'
    simp only [List.map_cons, List.isPrefixOf, Bool.and_eq_true, beq_iff_eq] at h'
    refine ⟨c0, ?_, ?_⟩
    · rw [← List.mem_reverse, hr]
      simp
    · intro hc
      subst hc
      have hd := h'.1
      simp at hd
  
theorem segs_of_md_name_ne_nil {relDir name : String}
    (hmd : jsEndsWith (jsToLower name) ".md" = true) :
    (jsSplitOnChar '/' (relDir ++ name)).filter (fun s => !s.isEmpty) ≠ [] := by
  obtain ⟨c, hc, hcs⟩ := exists_ne_slash_of_endsWith_md hmd
  unfold jsSplitOnChar
  apply splitOnCharGo_filter_ne_nil
  refine Or.inl ⟨c, ?_, hcs⟩
  rw [String.data_append]
  exact List.mem_append_right _ hc

theorem topLevelItems_filter_dirs (es : List Entry) (b : String) :
    topLevelItems es b = topLevelItems (es.filter Entry.isDir) b := by
  unfold topLevelItems
  suffices h : ∀ (es : List Entry) (acc : List SidebarItem),
      es.foldl (fun acc entry =>
        match entry with
        | .broken _ => acc
        | .file _ _ => acc
        | .dir name readable subEs =>
            if jsStartsWith name "." then acc
            else
              let groupBaseUrl := collapseSlashes (b ++ name ++ "/")
              let groupItems := generateSidebarItems (.dir name readable subEs) groupBaseUrl
              if !groupItems.isEmpty then
                acc ++ [SidebarItem.group (cleanName name) groupItems true]
              else acc) acc
      = (es.filter Entry.isDir).foldl (fun acc entry =>
          match entry with
          | .broken _ => acc
          | .file _ _ => acc
          | .dir name readable subEs =>
              if jsStartsWith name "." then acc
              else
                let groupBaseUrl := collapseSlashes (b ++ name ++ "/")
                let groupItems := generateSidebarItems (.dir name readable subEs) groupBaseUrl
                if !groupItems.isEmpty then
                  acc ++ [SidebarItem.group (cleanName name) groupItems true]
                else acc) acc by
    rw [h es []]
  intro es
  induction es with
  | nil => intro acc; rfl
  | cons e rest ih =>
      intro acc
      cases e with
      | file nm meta => simp only [List.foldl_cons, List.filter_cons]; rw [ih]; rfl
      | broken nm => simp only [List.foldl_cons, List.filter_cons]; rw [ih]; rfl
      | dir nm r subEs =>
          simp only [List.foldl_cons, List.filter_cons, Entry.isDir, if_true]
          rw [ih]

theorem topLevelItems_all_groups (es : List Entry) (b : String) :
    ∀ i ∈ topLevelItems es b, i.isGroup = true := by
  unfold topLevelItems
  intro i hi
  have hi' := mem_sortBy.mp hi
  revert hi'
  suffices h : ∀ (es : List Entry) (acc : List SidebarItem),
      (∀ j ∈ acc, j.isGroup = true) →
      ∀ j ∈ es.foldl (fun acc entry =>
        match entry with
        | .broken _ => acc
        | .file _ _ => acc
        | .dir name readable subEs =>
            if jsStartsWith name "." then acc
            else
              let groupBaseUrl := collapseSlashes (b ++ name ++ "/")
              let groupItems := generateSidebarItems (.dir name readable subEs) groupBaseUrl
              if !groupItems.isEmpty then
                acc ++ [SidebarItem.group (cleanName name) groupItems true]
              else acc) acc, j.isGroup = true by
    intro hi'
    exact h es [] (by simp) i hi'
  intro es
  induction es with
  | nil => intro acc hacc j hj; exact hacc j hj
  | cons e rest ih =>
      intro acc hacc j hj
      cases e with
      | file nm meta => exact ih acc hacc j hj
      | broken nm => exact ih acc hacc j hj
      | dir nm r subEs =>
          simp only [List.foldl_cons] at hj
          refine ih _ ?_ j hj
          intro x hx
          by_cases hh : jsStartsWith nm "." = true
          · rw [if_pos hh] at hx
            exact hacc x hx
          · rw [if_neg hh] at hx
            have hx' : x ∈ (if !(generateSidebarItems (Entry.dir nm r subEs)
                  (collapseSlashes (b ++ nm ++ "/"))).isEmpty
                then acc ++ [SidebarItem.group (cleanName nm)
                  (generateSidebarItems (Entry.dir nm r subEs)
                    (collapseSlashes (b ++ nm ++ "/"))) true]
                else acc) := hx
            cases hne : (generateSidebarItems (Entry.dir nm r subEs)
                (collapseSlashes (b ++ nm ++ "/"))).isEmpty
            · rw [hne] at hx'
              simp only [Bool.not_false, if_true] at hx'
              rcases List.mem_append.mp hx' with h1 | h1
              · exact hacc x h1
              · have hx2 : x = SidebarItem.group (cleanName nm)
                    (generateSidebarItems (.dir nm r subEs)
                      (collapseSlashes (b ++ nm ++ "/"))) true := by simpa using h1
                subst hx2
                rfl
            · rw [hne] at hx'
              simp only [Bool.not_true, Bool.false_eq_true, if_false] at hx'
              exact hacc x hx'

theorem scan_mono_aux (k' L : String) (n : Nat) :
    (∀ (e : Entry), sizeOf e ≤ n → ∀ (b rd : String) (m : TagsMap),
        (∃ q ∈ (mapGet m k').getD [], q.link = L) →
        ∃ q ∈ (mapGet (scanEntry e b rd m) k').getD [], q.link = L)
  ∧ (∀ (es : List Entry), sizeOf es ≤ n → ∀ (b rd : String) (m : TagsMap),
        (∃ q ∈ (mapGet m k').getD [], q.link = L) →
        ∃ q ∈ (mapGet (scanList es b rd m) k').getD [], q.link = L) := by
  induction n with
  | zero =>
      constructor
      · intro e he
        exfalso
        cases e <;> simp_all
      · intro es he b rd m hm
        cases es with
        | nil => exact hm
        | cons x xs => exfalso; simp_all
  | succ n ih =>
      constructor
      · intro e he b rd m hm
        cases e with
        | broken nm => exact hm
        | file nm meta =>
            simp only [scanEntry]
            cases hh : jsStartsWith nm "."
            · cases hmd : jsEndsWith (jsToLower nm) ".md"
              · simp only [Bool.false_eq_true, if_false]
                exact hm
              · simp only [if_true]
                cases hre : meta.readError
                · simp only [Bool.false_eq_true, if_false]
                  cases hft : (parseTags meta.tags).isEmpty
                  · simp only [Bool.not_false, if_true]
                    exact foldTags_pages_mono _ (parseTags meta.tags) m hm
                  · simp only [Bool.not_true, Bool.false_eq_true, if_false]
                    exact hm
                · simp only [if_true]
                  exact hm
            · simp only [if_true]
              exact hm
        | dir nm r es =>
            simp only [scanEntry]
            cases hh : jsStartsWith nm "."
            · cases r
              · simp only [Bool.false_eq_true, if_false]
                exact hm
              · simp only [Bool.false_eq_true, if_false, if_true]
                have hsz : sizeOf es ≤ n := by
                  have := Entry.dir.sizeOf_spec nm true es
                  omega
                exact ih.2 es hsz _ _ m hm
            · simp only [if_true]
              exact hm
      · intro es he b rd m hm
        cases es with
        | nil => exact hm
        | cons x xs =>
            have hsx : sizeOf x ≤ n := by simp at he; omega
            have hsxs : sizeOf xs ≤ n := by simp at he; omega
            simp only [scanList]
            exact ih.2 xs hsxs b rd _ (ih.1 x hsx b rd m hm)

theorem scan_segOK_aux (n : Nat) :
    (∀ (e : Entry), sizeOf e ≤ n → ∀ (b rd : String) (m : TagsMap),
        (∀ (k : String) (q : TagPageInfo), q ∈ (mapGet m k).getD [] →
            (jsSplitOnChar '/' q.relativePath).filter (fun s => !s.isEmpty) ≠ []) →
        ∀ (k : String) (q : TagPageInfo), q ∈ (mapGet (scanEntry e b rd m) k).getD [] →
            (jsSplitOnChar '/' q.relativePath).filter (fun s => !s.isEmpty) ≠ [])
  ∧ (∀ (es : List Entry), sizeOf es ≤ n → ∀ (b rd : String) (m : TagsMap),
        (∀ (k : String) (q : TagPageInfo), q ∈ (mapGet m k).getD [] →
            (jsSplitOnChar '/' q.relativePath).filter (fun s => !s.isEmpty) ≠ []) →
        ∀ (k : String) (q : TagPageInfo), q ∈ (mapGet (scanList es b rd m) k).getD [] →
            (jsSplitOnChar '/' q.relativePath).filter (fun s => !s.isEmpty) ≠ []) := by
  induction n with
  | zero =>
      constructor
      · intro e he
        exfalso
        cases e <;> simp_all
      · intro es he b rd m hm
        cases es with
        | nil => exact hm
        | cons x xs => exfalso; simp_all
  | succ n ih =>
      constructor
      · intro e he b rd m hm
        cases e with
        | broken nm => exact hm
        | file nm meta =>
            simp only [scanEntry]
            cases hh : jsStartsWith nm "."
            · cases hmd : jsEndsWith (jsToLower nm) ".md"
              · simp only [Bool.false_eq_true, if_false]
                exact hm
              · simp only [if_true]
                cases hre : meta.readError
                · simp only [Bool.false_eq_true, if_false]
                  cases hft : (parseTags meta.tags).isEmpty
                  · simp only [Bool.not_false, if_true]
                    intro k q hq
                    rcases foldTags_pages_subset _ (parseTags meta.tags) m q hq with h1 | h1
                    · exact hm k q h1
                    · subst h1
                      exact segs_of_md_name_ne_nil hmd
                  · simp only [Bool.not_true, Bool.false_eq_true, if_false]
                    exact hm
                · simp only [if_true]
                  exact hm
            · simp only [if_true]
              exact hm
        | dir nm r es =>
            simp only [scanEntry]
            cases hh : jsStartsWith nm "."
            · cases r
              · simp only [Bool.false_eq_true, if_false]
                exact hm
              · simp only [Bool.false_eq_true, if_false, if_true]
                have hsz : sizeOf es ≤ n := by
                  have := Entry.dir.sizeOf_spec nm true es
                  omega
                exact ih.2 es hsz _ _ m hm
            · simp only [if_true]
              exact hm
      · intro es he b rd m hm
        cases es with
        | nil => exact hm
        | cons x xs =>
            have hsx : sizeOf x ≤ n := by simp at he; omega
            have hsxs : sizeOf xs ≤ n := by simp at he; omega
            simp only [scanList]
            exact ih.2 xs hsxs b rd _ (ih.1 x hsx b rd m hm)

theorem scanList_establish_root {name : String} {meta : FileMeta} {tag : String}
    (hh : jsStartsWith name "." = false)
    (hmd : jsEndsWith (jsToLower name) ".md" = true)
    (hre : meta.readError = false)
    (htag : tag ∈ parseTags meta.tags) :
    ∀ (es : List Entry), Entry.file name meta ∈ es → ∀ (b rd : String) (m : TagsMap),
      ∃ q ∈ (mapGet (scanList es b rd m) (jsTrim tag)).getD [],
        q.link = getFileLink name b := by
  intro es
  induction es with
  | nil => intro hmem; cases hmem
  | cons e rest ih =>
      intro hmem b rd m
      rcases List.mem_cons.mp hmem with heq | hmem'
      · subst heq
        simp only [scanList]
        apply (scan_mono_aux (jsTrim tag) (getFileLink name b) (sizeOf rest)).2 rest
          (Nat.le_refl _) b rd
        simp only [scanEntry, hh, Bool.false_eq_true, if_false, hmd, if_true, hre]
        have hft : (parseTags meta.tags).isEmpty = false := by
          cases hft' : (parseTags meta.tags).isEmpty
          · rfl
          · rw [List.isEmpty_eq_true] at hft'
            rw [hft'] at htag
            cases htag
        rw [hft]
        simp only [Bool.not_false, if_true]
        exact foldTags_establish ⟨getFileLink name b, displayText meta.title name, rd ++ name⟩
          (parseTags meta.tags) m tag htag
      · simp only [scanList]
        exact ih hmem' b rd (scanEntry e b rd m)

theorem listHasLink_iff {L : String} {items : List SidebarItem} :
    listHasLink L items = true ↔ ∃ i ∈ items, treeHasLink L i = true := by
  induction items with
  | nil => simp [listHasLink]
  | cons x xs ih =>
      simp only [listHasLink, Bool.or_eq_true, ih]
      constructor
      · rintro (h | ⟨i, hi, ht⟩)
        · exact ⟨x, by simp, h⟩
        · exact ⟨i, by simp [hi], ht⟩
      · rintro ⟨i, hi, ht⟩
        rcases List.mem_cons.mp hi with rfl | hi'
        · exact Or.inl ht
        · exact Or.inr ⟨i, hi', ht⟩

theorem listHasLink_of_perm {L : String} {l1 l2 : List SidebarItem}
    (hperm : l1.Perm l2) (h : listHasLink L l1 = true) : listHasLink L l2 = true := by
  rw [listHasLink_iff] at h ⊢
  obtain ⟨i, hi, ht⟩ := h
  exact ⟨i, hperm.mem_iff.mp hi, ht⟩

theorem replaceFirstGroup_hasLink_establish {L dn : String}
    {f : List SidebarItem → List SidebarItem}
    (hf : ∀ its, listHasLink L (f its) = true) :
    ∀ (Ls : List SidebarItem), (∃ i ∈ Ls, isGroupNamed dn i = true) →
      listHasLink L (replaceFirstGroup dn f Ls) = true := by
  intro Ls
  induction Ls with
  | nil => rintro ⟨i, hi, _⟩; cases hi
  | cons i is ih =>
      rintro ⟨j, hj, hjg⟩
      cases i with
      | leaf t l =>
          have hj' : j ∈ is := by
            rcases List.mem_cons.mp hj with rfl | h
            · simp [isGroupNamed, SidebarItem.isGroup] at hjg
            · exact h
          simp only [replaceFirstGroup, listHasLink, Bool.or_eq_true]
          exact Or.inr (ih ⟨j, hj', hjg⟩)
      | group t its c =>
          by_cases ht : (t == dn) = true
          · simp only [replaceFirstGroup, ht, if_true, listHasLink, Bool.or_eq_true]
            exact Or.inl (by simpa [treeHasLink] using hf its)
          · have ht' : (t == dn) = false := by simpa using ht
            have hj' : j ∈ is := by
              rcases List.mem_cons.mp hj with rfl | h
              · simp [isGroupNamed, SidebarItem.isGroup, SidebarItem.text, ht'] at hjg
              · exact h
            simp only [replaceFirstGroup, ht', Bool.false_eq_true, if_false, listHasLink,
              Bool.or_eq_true]
            exact Or.inr (ih ⟨j, hj', hjg⟩)

theorem replaceFirstGroup_hasLink_preserve {L dn : String}
    {f : List SidebarItem → List SidebarItem}
    (hf : ∀ its, listHasLink L its = true → listHasLink L (f its) = true) :
    ∀ (Ls : List SidebarItem), listHasLink L Ls = true →
      listHasLink L (replaceFirstGroup dn f Ls) = true := by
  intro Ls
  induction Ls with
  | nil => intro h; exact h
  | cons i is ih =>
      intro h
      simp only [listHasLink, Bool.or_eq_true] at h
      cases i with
      | leaf t l =>
          simp only [replaceFirstGroup, listHasLink, Bool.or_eq_true]
          rcases h with h | h
          · exact Or.inl h
          · exact Or.inr (ih h)
      | group t its c =>
          by_cases ht : (t == dn) = true
          · simp only [replaceFirstGroup, ht, if_true, listHasLink, Bool.or_eq_true]
            rcases h with h | h
            · exact Or.inl (by
                simp only [treeHasLink] at h ⊢
                exact hf its h)
            · exact Or.inr h
          · have ht' : (t == dn) = false := by simpa using ht
            simp only [replaceFirstGroup, ht', Bool.false_eq_true, if_false, listHasLink,
              Bool.or_eq_true]
            rcases h with h | h
            · exact Or.inl h
            · exact Or.inr (ih h)

theorem insertPage_hasLink_preserve {L : String} (segs : List String)
    (link text : String) :
    ∀ (parent : List SidebarItem), listHasLink L parent = true →
      listHasLink L (insertPageIntoStructure segs parent link text) = true := by
  induction segs with
  | nil => intro parent h; exact h
  | cons s rest ih =>
      intro parent h
      cases rest with
      | nil =>
          simp only [insertPageIntoStructure]
          split
          · exact h
          · exact listHasLink_of_perm (sortBy_perm sidebarItemSorter _).symm
              (by
                rw [listHasLink_iff] at h ⊢
                obtain ⟨i, hi, ht⟩ := h
                exact ⟨i, List.mem_append_left _ hi, ht⟩)
      | cons s2 rest2 =>
          simp only [insertPageIntoStructure]
          split
          · exact replaceFirstGroup_hasLink_preserve (fun its hits => ih its hits) parent h
          · apply replaceFirstGroup_hasLink_preserve (fun its hits => ih its hits)
            exact listHasLink_of_perm (sortBy_perm sidebarItemSorter _).symm
              (by
                rw [listHasLink_iff] at h ⊢
                obtain ⟨i, hi, ht⟩ := h
                exact ⟨i, List.mem_append_left _ hi, ht⟩)

theorem insertPage_hasLink_establish {L : String} (text : String) :
    ∀ (segs : List String), segs ≠ [] →
    ∀ (parent : List SidebarItem),
      listHasLink L (insertPageIntoStructure segs parent L text) = true := by
  intro segs
  induction segs with
  | nil => intro h; exact absurd rfl h
  | cons s rest ih =>
      intro _ parent
      cases rest with
      | nil =>
          simp only [insertPageIntoStructure]
          split
          case isTrue hany =>
            rw [listHasLink_iff]
            obtain ⟨i, hi, hil⟩ := List.any_eq_true.mp hany
            refine ⟨i, hi, ?_⟩
            cases i with
            | leaf t l =>
                simp only [SidebarItem.link, Option.some_inj] at hil
                have : l = L := by simpa using hil
                subst this
                simp [treeHasLink]
            | group t its c => simp [SidebarItem.link] at hil
          case isFalse hany =>
            apply listHasLink_of_perm (sortBy_perm sidebarItemSorter _).symm
            rw [listHasLink_iff]
            exact ⟨SidebarItem.leaf text L, List.mem_append_right _ (by simp),
              by simp [treeHasLink]⟩
      | cons s2 rest2 =>
          simp only [insertPageIntoStructure]
          split
          case isTrue hany =>
            apply replaceFirstGroup_hasLink_establish
              (fun its => ih (by simp) its)
            exact List.any_eq_true.mp hany
          case isFalse hany =>
            apply replaceFirstGroup_hasLink_establish
              (fun its => ih (by simp) its)
            refine ⟨SidebarItem.group (cleanName s) [] true, ?_, ?_⟩
            · exact mem_sortBy.mpr (List.mem_append_right _ (by simp))
            · simp [isGroupNamed, SidebarItem.isGroup, SidebarItem.text]

theorem buildTagRootItems_hasLink {L : String} :
    ∀ (pages : List TagPageInfo) (acc : List SidebarItem),
      ((∃ q ∈ pages, q.link = L ∧
          (jsSplitOnChar '/' q.relativePath).filter (fun s => !s.isEmpty) ≠ [])
        ∨ listHasLink L acc = true) →
      listHasLink L (pages.foldl
        (fun acc page =>
          let segments := (jsSplitOnChar '/' page.relativePath).filter (fun s => !s.isEmpty)
          if !segments.isEmpty then insertPageIntoStructure segments acc page.link page.text
          else acc) acc) = true := by
  intro pages
  induction pages with
  | nil =>
      intro acc h
      rcases h with ⟨q, hq, _⟩ | h
      · cases hq
      · exact h
  | cons p ps ih =>
      intro acc h
      simp only [List.foldl_cons]
      rcases h with ⟨q, hq, hql, hqs⟩ | h
      · rcases List.mem_cons.mp hq with rfl | hq'
        · apply ih
          refine Or.inr ?_
          dsimp only
          have hse : ((jsSplitOnChar '/' q.relativePath).filter
              (fun s => !s.isEmpty)).isEmpty = false := by
            cases hx : ((jsSplitOnChar '/' q.relativePath).filter
                (fun s => !s.isEmpty)).isEmpty
            · rfl
            · exact absurd (List.isEmpty_eq_true.mp hx) hqs
          rw [hse]
          simp only [Bool.not_false, if_true]
          rw [hql]
          exact insertPage_hasLink_establish q.text _ hqs acc
        · apply ih
          exact Or.inl ⟨q, hq', hql, hqs⟩
      · apply ih
        refine Or.inr ?_
        dsimp only
        split
        · exact insertPage_hasLink_preserve _ _ _ acc h
        · exact h

/-- C10: markup files lying directly at the content root are skipped by
the structural enumeration (only directory entries contribute, and every
top-level structural item is a group), yet a root-level markup file with a
non-empty tag still surfaces as a leaf with its resolved URL inside the
corresponding tag group of the synthetic Tags group. -/
theorem c10_root_files (es : List Entry) (b : String) :
    (topLevelItems es b = topLevelItems (es.filter Entry.isDir) b)
  ∧ (∀ i ∈ topLevelItems es b, i.isGroup = true)
  ∧ (∀ (name : String) (meta : FileMeta) (tag : String),
      Entry.file name meta ∈ es →
      jsStartsWith name "." = false →
      jsEndsWith (jsToLower name) ".md" = true →
      meta.readError = false →
      tag ∈ parseTags meta.tags →
      ∃ tagItems, generateTagsSidebarGroup (.present true es) b
          = some (.group "Tags" tagItems true)
        ∧ ∃ ti ∈ tagItems, SidebarItem.text ti = jsTrim tag
            ∧ treeHasLink (getFileLink name (fixSlash b)) ti = true) := by
  refine ⟨topLevelItems_filter_dirs es b, topLevelItems_all_groups es b, ?_⟩
  intro name meta tag hmem hh hmd hre htag
  obtain ⟨q, hq, hql⟩ :=
    scanList_establish_root hh hmd hre htag es hmem (fixSlash b) "" []
  have hseg : ∀ (k : String) (q' : TagPageInfo),
      q' ∈ (mapGet (scanList es (fixSlash b) "" []) k).getD [] →
      (jsSplitOnChar '/' q'.relativePath).filter (fun s => !s.isEmpty) ≠ [] :=
    (scan_segOK_aux (sizeOf es)).2 es (Nat.le_refl _) (fixSlash b) "" []
      (fun k q' hq' => absurd hq' (by simp [mapGet]))
  have hscan : scanRootForTags (.present true es) b = scanList es (fixSlash b) "" [] := rfl
  have hKv : ∃ v, mapGet (scanList es (fixSlash b) "" []) (jsTrim tag) = some v := by
    cases hx : mapGet (scanList es (fixSlash b) "" []) (jsTrim tag) with
    | none => rw [hx] at hq; simp at hq
    | some v => exact ⟨v, rfl⟩
  obtain ⟨v, hKv⟩ := hKv
  have hKmem : jsTrim tag ∈ (scanList es (fixSlash b) "" []).map Prod.fst := by
    unfold mapGet at hKv
    cases hf : (scanList es (fixSlash b) "" []).find? (fun p => p.1 == jsTrim tag) with
    | none => rw [hf] at hKv; simp at hKv
    | some kv =>
        have hkmem := List.mem_of_find?_eq_some hf
        have hkeq := List.find?_some hf
        refine List.mem_map.mpr ⟨kv, hkmem, ?_⟩
        simpa using hkeq
  have hne : (scanList es (fixSlash b) "" []).isEmpty = false := by
    cases hx : scanList es (fixSlash b) "" [] with
    | nil => rw [hx] at hKv; simp [mapGet] at hKv
    | cons a l => rfl
  refine ⟨(sortBy localeCmp ((scanList es (fixSlash b) "" []).map Prod.fst)).map
      (fun tag => SidebarItem.group tag
        (buildTagRootItems ((mapGet (scanList es (fixSlash b) "" []) tag).getD [])) true),
    ?_, ?_⟩
  · unfold generateTagsSidebarGroup
    show (if (scanRootForTags (RootFs.present true es) b).isEmpty = true then none
        else some (SidebarItem.group "Tags"
          ((sortBy localeCmp ((scanRootForTags (RootFs.present true es) b).map Prod.fst)).map
            (fun tag => SidebarItem.group tag
              (buildTagRootItems
                ((mapGet (scanRootForTags (RootFs.present true es) b) tag).getD [])) true))
          true))
      = _
    rw [hscan, hne]
    simp only [Bool.false_eq_true, if_false]
  · refine ⟨SidebarItem.group (jsTrim tag)
      (buildTagRootItems ((mapGet (scanList es (fixSlash b) "" []) (jsTrim tag)).getD []))
      true, ?_, rfl, ?_⟩
    · exact List.mem_map.mpr ⟨jsTrim tag, mem_sortBy.mpr hKmem, rfl⟩
    · show listHasLink (getFileLink name (fixSlash b))
        (buildTagRootItems ((mapGet (scanList es (fixSlash b) "" []) (jsTrim tag)).getD []))
        = true
      unfold buildTagRootItems
      exact buildTagRootItems_hasLink _ []
        (Or.inl ⟨q, hq, hql, hseg (jsTrim tag) q hq⟩)

/-- C10 witness: a loose tagged file at the content root is absent from
the structural portion but present under its tag group. -/
theorem c10_root_files_witness :
    (topLevelItems
        [Entry.file "loose.md" ⟨some "Loose", .str "t", false⟩,
         Entry.dir "g" true [Entry.file "a.md" ⟨none, .absent, false⟩]] "/"
      = topLevelItems
          (([Entry.file "loose.md" ⟨some "Loose", .str "t", false⟩,
             Entry.dir "g" true [Entry.file "a.md" ⟨none, .absent, false⟩]]).filter
            Entry.isDir) "/")
  ∧ ∃ tagItems, generateTagsSidebarGroup
        (.present true
          [Entry.file "loose.md" ⟨some "Loose", .str "t", false⟩,
           Entry.dir "g" true [Entry.file "a.md" ⟨none, .absent, false⟩]]) "/"
      = some (.group "Tags" tagItems true)
    ∧ ∃ ti ∈ tagItems, SidebarItem.text ti = jsTrim "t"
        ∧ treeHasLink (getFileLink "loose.md" (fixSlash "/")) ti = true :=
  ⟨(c10_root_files
      [Entry.file "loose.md" ⟨some "Loose", .str "t", false⟩,
       Entry.dir "g" true [Entry.file "a.md" ⟨none, .absent, false⟩]] "/").1,
   (c10_root_files
      [Entry.file "loose.md" ⟨some "Loose", .str "t", false⟩,
       Entry.dir "g" true [Entry.file "a.md" ⟨none, .absent, false⟩]] "/").2.2
     "loose.md" ⟨some "Loose", .str "t", false⟩ "t"
     (by simp) (by decide) (by decide) (by decide) (by decide)⟩
